import Mathlib

/-!
Verification development for the rusty-tank repository (src/corr.rs and
src/kmeans.rs).  The f64 values of the source are modelled exactly: a
floating-point value is either NaN, one of the two infinities, or an exact
rational number; arithmetic follows the IEEE-754 special-value rules but is
otherwise exact (no rounding, signed zero identified with zero).  The sparse
row store (the `csr` crate module, not present under src/) is modelled from
the spec: a Row is a list of (column, value) entries, column-sorted by the
insertion protocol, and a store is a list of rows with positional access.
-/

namespace RustyTank

/-- Exact model of an f64 value: NaN, plus or minus infinity, or an exact
rational.  Rounding and signed zero are not modelled; special-value
propagation is. -/
inductive Fq where
  | nan : Fq
  | inf : Fq
  | ninf : Fq
  | val : ℚ → Fq
deriving DecidableEq, Repr

namespace Fq

/-- IEEE negation on the model. -/
def neg : Fq → Fq
  | nan => nan
  | inf => ninf
  | ninf => inf
  | val q => val (-q)

/-- IEEE addition on the model: NaN propagates, opposite infinities give NaN,
finite addition is exact. -/
def add : Fq → Fq → Fq
  | nan, _ => nan
  | _, nan => nan
  | inf, ninf => nan
  | ninf, inf => nan
  | inf, _ => inf
  | _, inf => inf
  | ninf, _ => ninf
  | _, ninf => ninf
  | val a, val b => val (a + b)

/-- IEEE subtraction: `a - b = a + (-b)` (exact in IEEE as well). -/
def sub (a b : Fq) : Fq := a.add b.neg

/-- IEEE multiplication on the model: NaN propagates, infinity times zero is
NaN, signs of infinities follow the factor signs, finite products are exact. -/
def mul : Fq → Fq → Fq
  | nan, _ => nan
  | _, nan => nan
  | inf, inf => inf
  | inf, ninf => ninf
  | ninf, inf => ninf
  | ninf, ninf => inf
  | inf, val b => if b = 0 then nan else if 0 < b then inf else ninf
  | val a, inf => if a = 0 then nan else if 0 < a then inf else ninf
  | ninf, val b => if b = 0 then nan else if 0 < b then ninf else inf
  | val a, ninf => if a = 0 then nan else if 0 < a then ninf else inf
  | val a, val b => val (a * b)

/-- IEEE division on the model: NaN propagates, `0/0` and `inf/inf` are NaN,
a nonzero finite number divided by zero is a (positive-sign) infinity, a
finite number divided by infinity is zero, finite division is exact. -/
def div : Fq → Fq → Fq
  | nan, _ => nan
  | _, nan => nan
  | inf, inf => nan
  | inf, ninf => nan
  | ninf, inf => nan
  | ninf, ninf => nan
  | inf, val b => if 0 ≤ b then inf else ninf
  | ninf, val b => if 0 ≤ b then ninf else inf
  | val _, inf => val 0
  | val _, ninf => val 0
  | val a, val b =>
    if b = 0 then (if a = 0 then nan else if 0 < a then inf else ninf)
    else val (a / b)

instance : Add Fq := ⟨Fq.add⟩
instance : Sub Fq := ⟨Fq.sub⟩
instance : Mul Fq := ⟨Fq.mul⟩
instance : Div Fq := ⟨Fq.div⟩
instance : Neg Fq := ⟨Fq.neg⟩

/-- Whether the value is a finite rational. -/
def isVal : Fq → Bool
  | val _ => true
  | _ => false

/-- Finite-or-NaN: the value is not one of the infinities. -/
def finOrNan : Fq → Prop
  | inf => False
  | ninf => False
  | _ => True

end Fq

/-- Modelled from the spec: one observed cell of the sparse row store
(the csr module is not under src/): a column index paired with a value. -/
structure Entry where
  column : ℕ
  value : Fq
deriving DecidableEq, Repr

/-- Modelled from the spec: a sparse row is an ordered list of entries; the
insertion protocol keeps columns strictly increasing. -/
abbrev Row := List Entry

/-- Modelled from the spec: the sparse row store is an ordered collection of
rows with positional access. -/
structure Csr where
  rows : List Row
deriving DecidableEq, Repr

/-- Modelled from the spec: `get_row` returns the row at the given index
(out of range signals a bounds failure in the source; here, the empty row). -/
def Csr.get_row (m : Csr) (i : ℕ) : Row := m.rows.getD i []

/-- The accumulators of `pearson`'s merge loop in corr.rs. -/
structure Stats where
  n : ℕ
  sum_a : Fq
  sum_squared_a : Fq
  sum_b : Fq
  sum_squared_b : Fq
  product_sum : Fq
deriving DecidableEq, Repr

/-- The zero-initialised accumulators of corr.rs lines 10-15. -/
def initStats : Stats :=
  ⟨0, Fq.val 0, Fq.val 0, Fq.val 0, Fq.val 0, Fq.val 0⟩

/-- One shared-column accumulation step of the merge loop, corr.rs lines
23-28: bump the count and add into the five running sums (fields in
declaration order: n, sum_a, sum_squared_a, sum_b, sum_squared_b,
product_sum). -/
def accumStats (s : Stats) (ea eb : Entry) : Stats :=
  ⟨s.n + 1,
   s.sum_a + ea.value,
   s.sum_squared_a + ea.value * ea.value,
   s.sum_b + eb.value,
   s.sum_squared_b + eb.value * eb.value,
   s.product_sum + ea.value * eb.value⟩

/-- The inner part of the merge loop while the head of the first row is
fixed: advance the second row past smaller columns; on a larger column or a
shared column hand control back to the outer loop (`advanceA`), after
accumulating in the shared case.  Together with `pearsonLoop` this is the
`while let` loop of corr.rs lines 17-32, written as nested structural
recursion so that the kernel can evaluate it. -/
def pearsonGo (advanceA : List Entry → Stats → Stats) (ea : Entry) :
    List Entry → Stats → Stats
  | [], s => s
  | eb :: restb, s =>
    if ea.column < eb.column then advanceA (eb :: restb) s
    else if eb.column < ea.column then pearsonGo advanceA ea restb s
    else advanceA restb (accumStats s ea eb)

/-- The `while let` merge loop of corr.rs lines 17-32: advance the side with
the smaller column, and on a shared column accumulate count, sums, squared
sums and the product sum, advancing both sides. -/
def pearsonLoop : List Entry → List Entry → Stats → Stats
  | [], _, s => s
  | ea :: resta, b, s => pearsonGo (pearsonLoop resta) ea b s

/-- The guard `denominator > 0.000001` of corr.rs line 41, expressed on the
radicand: for a finite radicand x, `sqrt x > 1e-6` holds exactly when
`x > 1e-12` (sqrt of a negative argument is NaN and every comparison with NaN
is false, matching `x > 1e-12` being false for negative x); `sqrt inf = inf`
exceeds the threshold; a NaN radicand gives a NaN denominator and the
comparison is false. -/
def sqrtGtMillionth : Fq → Bool
  | Fq.val x => decide ((1 : ℚ) / 1000000000000 < x)
  | Fq.inf => true
  | _ => false

/-- The value of a pearson computation: NaN, an infinity, or a real number
(real, not rational, because of the square root in the denominator). -/
inductive RVal where
  | nan : RVal
  | inf : RVal
  | ninf : RVal
  | v : ℝ → RVal

/-- IEEE subtraction on pearson values (used for `1.0 - pearson(...)`). -/
def RVal.sub : RVal → RVal → RVal
  | nan, _ => nan
  | _, nan => nan
  | inf, inf => nan
  | ninf, ninf => nan
  | inf, _ => inf
  | ninf, _ => ninf
  | v _, inf => ninf
  | v _, ninf => inf
  | v a, v b => v (a - b)

/-- IEEE strict less-than on pearson values: any comparison with NaN is
false, minus infinity is below everything else, plus infinity above. -/
def RVal.lt : RVal → RVal → Prop
  | nan, _ => False
  | _, nan => False
  | ninf, ninf => False
  | ninf, _ => True
  | _, ninf => False
  | inf, _ => False
  | v _, inf => True
  | v a, v b => a < b

noncomputable instance RVal.decLt : ∀ a b : RVal, Decidable (RVal.lt a b)
  | RVal.nan, b => isFalse (fun h => by cases b <;> exact h)
  | RVal.inf, RVal.nan => isFalse (fun h => h)
  | RVal.inf, RVal.inf => isFalse (fun h => h)
  | RVal.inf, RVal.ninf => isFalse (fun h => h)
  | RVal.inf, RVal.v _ => isFalse (fun h => h)
  | RVal.ninf, RVal.nan => isFalse (fun h => h)
  | RVal.ninf, RVal.inf => isTrue trivial
  | RVal.ninf, RVal.ninf => isFalse (fun h => h)
  | RVal.ninf, RVal.v _ => isTrue trivial
  | RVal.v _, RVal.nan => isFalse (fun h => h)
  | RVal.v _, RVal.inf => isTrue trivial
  | RVal.v _, RVal.ninf => isFalse (fun h => h)
  | RVal.v a, RVal.v b => inferInstanceAs (Decidable (a < b))

/-- `numerator / sqrt(radicand)` for the guarded branch of corr.rs line 41.
The guard guarantees the radicand is either a finite rational above 1e-12 or
plus infinity; the remaining radicand shapes cannot reach this function and
are mapped to NaN. -/
noncomputable def sqrtQuot (num rad : Fq) : RVal :=
  match rad with
  | Fq.val x =>
    match num with
    | Fq.val y => RVal.v ((y : ℝ) / Real.sqrt (x : ℝ))
    | Fq.nan => RVal.nan
    | Fq.inf => RVal.inf
    | Fq.ninf => RVal.ninf
  | Fq.inf =>
    match num with
    | Fq.val _ => RVal.v 0
    | _ => RVal.nan
  | _ => RVal.nan

/-- Pearson correlation, corr.rs lines 6-42: merge-join the two rows over
shared columns; with no shared column return 0.0; otherwise form the
covariance numerator and the square-root denominator and return their
quotient when the denominator exceeds 1e-6, else 0.0. -/
noncomputable def pearson (a b : Row) : RVal :=
  let s := pearsonLoop a b initStats
  if s.n = 0 then RVal.v 0
  else
    let nQ : Fq := Fq.val (s.n : ℚ)
    let numerator := s.product_sum - s.sum_a * s.sum_b / nQ
    let radicand :=
      (s.sum_squared_a - s.sum_a * s.sum_a / nQ) *
        (s.sum_squared_b - s.sum_b * s.sum_b / nQ)
    if sqrtGtMillionth radicand then sqrtQuot numerator radicand else RVal.v 0

/-- Update the element at a position of a list in place (no-op out of range):
the model of writing through an index into a Rust vector or slice. -/
def listUpd {α : Type} (f : α → α) : ℕ → List α → List α
  | _, [] => []
  | 0, x :: xs => f x :: xs
  | i + 1, x :: xs => x :: listUpd f i xs

/-- The k-means model state of kmeans.rs lines 8-14. -/
structure Model where
  row_count : ℕ
  column_count : ℕ
  cluster_count : ℕ
  centroids : Csr
  row_clusters : List (Option ℕ)
deriving DecidableEq

/-- `Model::new`, kmeans.rs lines 18-37: every centroid row is dense over
the columns, filled from the external random source (modelled as an
arbitrary rational-valued function); every assignment starts unassigned. -/
def Model.mk_new (row_count column_count cluster_count : ℕ)
    (rand : ℕ → ℕ → ℚ) : Model :=
  ⟨row_count, column_count, cluster_count,
   ⟨(List.range cluster_count).map
      (fun c => (List.range column_count).map (fun j => ⟨j, Fq.val (rand c j)⟩))⟩,
   List.replicate row_count none⟩

/-- One iteration of the nearest-centroid scan, kmeans.rs lines 106-112:
compute the distance `1.0 - pearson(row, centroid i)` and keep it, with its
index, when it is strictly below the minimum seen so far. -/
noncomputable def nearest_step (m : Model) (row : Row) (acc : RVal × ℕ) (i : ℕ) :
    RVal × ℕ :=
  let distance := RVal.sub (RVal.v 1) (pearson row (m.centroids.get_row i))
  if RVal.lt distance acc.1 then (distance, i) else acc

/-- `Model::get_nearest_centroid`, kmeans.rs lines 100-115: scan the
centroids, keeping the index of the strictly smallest `1 - pearson`
distance seen so far, starting from plus infinity and index 0. -/
noncomputable def Model.get_nearest_centroid (m : Model) (row : Row) : ℕ :=
  ((List.range m.cluster_count).foldl (nearest_step m row) (RVal.inf, 0)).2

/-- One iteration of the assignment loop, kmeans.rs lines 58-68: skip the
row when it has fewer than 3 entries, otherwise record the nearest centroid
at the row's index, counting a change when it differs from the previous
value. -/
noncomputable def assign_step (matrix : Csr) (acc : Model × ℕ) (row_index : ℕ) :
    Model × ℕ :=
  let row := matrix.get_row row_index
  if row.length < 3 then acc
  else
    let cluster_index : Option ℕ := some (acc.1.get_nearest_centroid row)
    let changed :=
      if cluster_index ≠ acc.1.row_clusters.getD row_index none then acc.2 + 1
      else acc.2
    (⟨acc.1.row_count, acc.1.column_count, acc.1.cluster_count, acc.1.centroids,
      acc.1.row_clusters.set row_index cluster_index⟩, changed)

/-- The assignment loop of `make_step`, kmeans.rs lines 56-69. -/
noncomputable def Model.assign_phase (m : Model) (matrix : Csr) : Model × ℕ :=
  (List.range m.row_count).foldl (assign_step matrix) (m, 0)

/-- Set every value of a row to 0.0, keeping the column structure. -/
def zeroRow (r : Row) : Row := r.map (fun e => ⟨e.column, Fq.val 0⟩)

/-- The centroid reset loop of `make_step`, kmeans.rs lines 71-76. -/
def reset_phase (cluster_count : ℕ) (cents : Csr) : Csr :=
  ⟨(List.range cluster_count).foldl (fun rows c => listUpd zeroRow c rows) cents.rows⟩

/-- One entry of an assigned data row, kmeans.rs lines 81-86: bump the
per-(cluster, column) contribution counter (a flat vector indexed by
`cluster * column_count + column`) and add the value into the centroid cell
at slice position `column`. -/
def accum_entry (column_count cluster_index : ℕ)
    (acc : List Row × List ℕ) (e : Entry) : List Row × List ℕ :=
  (listUpd (fun row => listUpd (fun cell => ⟨cell.column, cell.value + e.value⟩) e.column row)
      cluster_index acc.1,
   listUpd (fun k => k + 1) (cluster_index * column_count + e.column) acc.2)

/-- One data row of the accumulation loop, kmeans.rs lines 79-88: a row
with a recorded assignment contributes each of its entries to its cluster's
centroid; an unassigned row contributes nothing. -/
def accum_row (column_count : ℕ) (matrix : Csr) (A : List (Option ℕ))
    (acc : List Row × List ℕ) (row_index : ℕ) : List Row × List ℕ :=
  match A.getD row_index none with
  | none => acc
  | some cluster_index =>
    (matrix.get_row row_index).foldl (accum_entry column_count cluster_index) acc

/-- The accumulation loop of `make_step`, kmeans.rs lines 77-88. -/
def accumulate_phase (row_count column_count cluster_count : ℕ) (matrix : Csr)
    (A : List (Option ℕ)) (cents : Csr) : List Row × List ℕ :=
  (List.range row_count).foldl (accum_row column_count matrix A)
    (cents.rows, List.replicate (cluster_count * column_count) 0)

/-- Divide one centroid row cell-wise by the contribution counters,
kmeans.rs lines 90-94. -/
def normRow (column_count : ℕ) (counts : List ℕ) (cluster_index : ℕ) (row : Row) : Row :=
  row.map (fun e =>
    ⟨e.column,
     e.value / Fq.val ((counts.getD (cluster_index * column_count + e.column) 0 : ℕ) : ℚ)⟩)

/-- The normalisation loop of `make_step`, kmeans.rs lines 89-94. -/
def normalize_phase (column_count cluster_count : ℕ) (counts : List ℕ)
    (rows : List Row) : List Row :=
  (List.range cluster_count).foldl
    (fun rs c => listUpd (normRow column_count counts c) c rs) rows

/-- The whole centroid-recomputation part of `make_step` (reset, accumulate,
normalise), as a function of the assignment table, the data matrix, the
dimensions and the previous centroid store. -/
def recompute (row_count column_count cluster_count : ℕ) (matrix : Csr)
    (A : List (Option ℕ)) (cents : Csr) : Csr :=
  let c1 := reset_phase cluster_count cents
  let acc := accumulate_phase row_count column_count cluster_count matrix A c1
  ⟨normalize_phase column_count cluster_count acc.2 acc.1⟩

/-- `Model::make_step`, kmeans.rs lines 55-97: assignment, centroid reset,
accumulation and normalisation; returns the updated model and the number of
changed assignments. -/
noncomputable def Model.make_step (m : Model) (matrix : Csr) : Model × ℕ :=
  let a := m.assign_phase matrix
  (⟨a.1.row_count, a.1.column_count, a.1.cluster_count,
    recompute a.1.row_count a.1.column_count a.1.cluster_count matrix
      a.1.row_clusters a.1.centroids,
    a.1.row_clusters⟩, a.2)

/-- The model states reachable by the caller-driven loop: a freshly
constructed model (any dimensions, any random draw), or the result of a
refinement step on a reachable state with the given data matrix. -/
inductive Reach (matrix : Csr) : Model → Prop where
  | init (row_count column_count cluster_count : ℕ) (rand : ℕ → ℕ → ℚ) :
      Reach matrix (Model.mk_new row_count column_count cluster_count rand)
  | step {m : Model} : Reach matrix m → Reach matrix (m.make_step matrix).1

/-- The real number carried by a pearson value (0 for the special values;
only used where the value is known to be of the `v` shape). -/
def RVal.toReal : RVal → ℝ
  | RVal.v x => x
  | _ => 0

/-- The distance `1.0 - pearson(row, centroid i)` used by the assignment
phase, kmeans.rs line 107. -/
noncomputable def Model.distance (m : Model) (row : Row) (i : ℕ) : RVal :=
  RVal.sub (RVal.v 1) (pearson row (m.centroids.get_row i))

/-- The column structure of a centroid store: for every row, its list of
column indices (the part of the store that reset, accumulation and
normalisation depend on, values aside). -/
def colShape (c : Csr) : List (List ℕ) :=
  c.rows.map (fun r => r.map (fun e => e.column))

/-- The value stored at list position `p` of centroid row `k` (for dense
centroid rows, position and column coincide). -/
def cellValue (c : Csr) (k p : ℕ) : Fq :=
  ((c.rows.getD k []).getD p ⟨0, Fq.val 0⟩).value

/-- The values contributed to cluster `c` at column `col`: for every data
row assigned to `c`, in row order, the values of its entries with that
column. -/
def contribValues (matrix : Csr) (A : List (Option ℕ)) (row_count c col : ℕ) :
    List Fq :=
  (((List.range row_count).filter (fun i => decide (A.getD i none = some c))).map
    (fun i => ((matrix.get_row i).filter (fun e => decide (e.column = col))).map
      (fun e => e.value))).flatten

/-- Left-to-right sum of a list of values starting from `x` (the order in
which `make_step` adds contributions into a centroid cell). -/
def addAll (x : Fq) (l : List Fq) : Fq := l.foldl (fun a b => a + b) x

/-- The rational carried by a finite value (0 for the special values). -/
def Fq.toRat : Fq → ℚ
  | Fq.val q => q
  | _ => 0

/-- The list of (rational) values of a row. -/
def rowVals (a : Row) : List ℚ := a.map (fun e => e.value.toRat)

/-- The quantity `Σv² - (Σv)²/n` over a row's own values: the common value
of `pearson`'s numerator and of each factor of its radicand when both
arguments are the same row. -/
def selfD (a : Row) : ℚ :=
  (((rowVals a).map (fun x => x * x)).sum) -
    (rowVals a).sum * (rowVals a).sum / (a.length : ℚ)

/-- A sequence of shared-column accumulations applied to an accumulator (the
merge loop performs exactly such a sequence, one pair per shared column). -/
def statsFold (ps : List (Entry × Entry)) (s : Stats) : Stats :=
  ps.foldl (fun t p => accumStats t p.1 p.2) s

/-- Exchange the roles of the two rows in a merge-loop accumulator. -/
def swapStats (s : Stats) : Stats :=
  ⟨s.n, s.sum_b, s.sum_squared_b, s.sum_a, s.sum_squared_a, s.product_sum⟩

/-! Basic computation lemmas for the value model. -/

@[simp] theorem Fq.val_add_val (a b : ℚ) : Fq.val a + Fq.val b = Fq.val (a + b) := rfl

@[simp] theorem Fq.nan_add (x : Fq) : Fq.nan + x = Fq.nan := by cases x <;> rfl

@[simp] theorem Fq.add_nan (x : Fq) : x + Fq.nan = Fq.nan := by cases x <;> rfl

@[simp] theorem Fq.val_mul_val (a b : ℚ) : Fq.val a * Fq.val b = Fq.val (a * b) := rfl

@[simp] theorem Fq.nan_mul (x : Fq) : Fq.nan * x = Fq.nan := by cases x <;> rfl

@[simp] theorem Fq.mul_nan (x : Fq) : x * Fq.nan = Fq.nan := by cases x <;> rfl

@[simp] theorem Fq.neg_val (a : ℚ) : -(Fq.val a) = Fq.val (-a) := rfl

@[simp] theorem Fq.val_sub_val (a b : ℚ) : Fq.val a - Fq.val b = Fq.val (a - b) := by
  show Fq.sub _ _ = _
  simp [Fq.sub, Fq.neg, Fq.add, sub_eq_add_neg]

@[simp] theorem Fq.nan_sub (x : Fq) : Fq.nan - x = Fq.nan := by cases x <;> rfl

@[simp] theorem Fq.sub_nan (x : Fq) : x - Fq.nan = Fq.nan := by cases x <;> rfl

@[simp] theorem Fq.nan_div (x : Fq) : Fq.nan / x = Fq.nan := by cases x <;> rfl

@[simp] theorem Fq.div_nan (x : Fq) : x / Fq.nan = Fq.nan := by cases x <;> rfl

theorem Fq.val_div_val (a b : ℚ) (h : b ≠ 0) :
    Fq.val a / Fq.val b = Fq.val (a / b) := by
  show Fq.div _ _ = _
  simp [Fq.div, h]

theorem Fq.zero_div_zeroF : Fq.val 0 / Fq.val 0 = Fq.nan := by
  show Fq.div _ _ = _
  simp [Fq.div]

theorem Fq.mul_comm (a b : Fq) : a * b = b * a := by
  show Fq.mul a b = Fq.mul b a
  cases a <;> cases b <;> simp [Fq.mul, Rat.mul_comm]

@[simp] theorem RVal.sub_v_v (a b : ℝ) :
    RVal.sub (RVal.v a) (RVal.v b) = RVal.v (a - b) := rfl

@[simp] theorem RVal.sub_v_nan (a : ℝ) : RVal.sub (RVal.v a) RVal.nan = RVal.nan := rfl

@[simp] theorem RVal.lt_v_inf (x : ℝ) : RVal.lt (RVal.v x) RVal.inf := trivial

@[simp] theorem RVal.not_lt_nan_left (b : RVal) : ¬ RVal.lt RVal.nan b := by
  cases b <;> exact id

@[simp] theorem RVal.not_lt_right_nan (a : RVal) : ¬ RVal.lt a RVal.nan := by
  cases a <;> exact id

@[simp] theorem RVal.lt_v_v (a b : ℝ) : RVal.lt (RVal.v a) (RVal.v b) ↔ a < b := Iff.rfl

/-! Lemmas about positional list update. -/

@[simp] theorem listUpd_nil {α : Type} (f : α → α) (i : ℕ) : listUpd f i [] = [] := by
  cases i <;> rfl

@[simp] theorem listUpd_zero_cons {α : Type} (f : α → α) (x : α) (xs : List α) :
    listUpd f 0 (x :: xs) = f x :: xs := rfl

@[simp] theorem listUpd_succ_cons {α : Type} (f : α → α) (i : ℕ) (x : α) (xs : List α) :
    listUpd f (i + 1) (x :: xs) = x :: listUpd f i xs := rfl

@[simp] theorem length_listUpd {α : Type} (f : α → α) (i : ℕ) (l : List α) :
    (listUpd f i l).length = l.length := by
  induction l generalizing i with
  | nil => simp
  | cons x xs ih => cases i <;> simp [ih]

theorem getElem?_listUpd_self {α : Type} (f : α → α) (i : ℕ) (l : List α) :
    (listUpd f i l)[i]? = (l[i]?).map f := by
  induction l generalizing i with
  | nil => simp
  | cons x xs ih => cases i <;> simp [ih]

theorem getElem?_listUpd_ne {α : Type} (f : α → α) {i j : ℕ} (l : List α)
    (h : i ≠ j) : (listUpd f i l)[j]? = l[j]? := by
  induction l generalizing i j with
  | nil => simp
  | cons x xs ih =>
    cases i with
    | zero => cases j with
      | zero => exact absurd rfl h
      | succ j => simp
    | succ i => cases j with
      | zero => simp
      | succ j => simpa using ih (fun hij => h (by omega))

theorem listUpd_of_length_le {α : Type} (f : α → α) {i : ℕ} {l : List α}
    (h : l.length ≤ i) : listUpd f i l = l := by
  induction l generalizing i with
  | nil => simp
  | cons x xs ih =>
    cases i with
    | zero => simp at h
    | succ i => simp only [listUpd_succ_cons, List.length_cons] at h ⊢
                rw [ih (by omega)]

/-- Peel the last index off a fold over `List.range (n + 1)`. -/
theorem foldl_range_succ {α : Type} (f : α → ℕ → α) (init : α) (n : ℕ) :
    (List.range (n + 1)).foldl f init = f ((List.range n).foldl f init) n := by
  rw [List.range_succ, List.foldl_append, List.foldl_cons, List.foldl_nil]

/-- A fold that updates position `c` at iteration `c` acts like a positional
map below `n` and does nothing from `n` on. -/
theorem foldl_upd_range {α : Type} (h : ℕ → α → α) (n : ℕ) (l : List α) (j : ℕ) :
    ((List.range n).foldl (fun acc c => listUpd (h c) c acc) l)[j]? =
      if j < n then (l[j]?).map (h j) else l[j]? := by
  induction n with
  | zero => simp
  | succ n ih =>
    rw [foldl_range_succ]
    by_cases hj : j = n
    · subst hj
      rw [getElem?_listUpd_self, ih]
      simp
    · rw [getElem?_listUpd_ne _ _ (fun hnj => hj hnj.symm), ih]
      by_cases hlt : j < n
      · have h2 : j < n + 1 := by omega
        simp [hlt, h2]
      · have h2 : ¬ j < n + 1 := by omega
        simp [hlt, h2]


/-! The merge loop on disjoint rows and on swapped rows. -/

theorem pearsonLoop_disjoint : ∀ (a b : List Entry) (s : Stats),
    (∀ ea ∈ a, ∀ eb ∈ b, ea.column ≠ eb.column) → pearsonLoop a b s = s := by
  intro a
  induction a with
  | nil => intro b s h; rfl
  | cons ea resta iha =>
    intro b
    induction b with
    | nil => intro s h; rfl
    | cons eb restb ihb =>
      intro s h
      show pearsonGo (pearsonLoop resta) ea (eb :: restb) s = s
      rcases Nat.lt_trichotomy ea.column eb.column with hlt | heq | hgt
      · simp only [pearsonGo]
        rw [if_pos hlt]
        exact iha (eb :: restb) s (fun x hx y hy => h x (List.mem_cons_of_mem ea hx) y hy)
      · exact absurd heq (h ea (List.mem_cons_self ea resta) eb (List.mem_cons_self eb restb))
      · simp only [pearsonGo]
        rw [if_neg (by omega), if_pos hgt]
        exact ihb s (fun x hx y hy => h x hx y (List.mem_cons_of_mem eb hy))

theorem accumStats_swap (s : Stats) (ea eb : Entry) :
    accumStats (swapStats s) eb ea = swapStats (accumStats s ea eb) := by
  simp only [accumStats, swapStats]
  rw [Fq.mul_comm eb.value ea.value]

theorem pearsonLoop_swap : ∀ (a b : List Entry) (s : Stats),
    pearsonLoop b a (swapStats s) = swapStats (pearsonLoop a b s) := by
  intro a
  induction a with
  | nil => intro b s; cases b <;> rfl
  | cons ea resta iha =>
    intro b
    induction b with
    | nil => intro s; rfl
    | cons eb restb ihb =>
      intro s
      show pearsonGo (pearsonLoop restb) eb (ea :: resta) (swapStats s) =
        swapStats (pearsonGo (pearsonLoop resta) ea (eb :: restb) s)
      rcases Nat.lt_trichotomy ea.column eb.column with hlt | heq | hgt
      · simp only [pearsonGo]
        rw [if_neg (by omega), if_pos hlt, if_pos hlt]
        exact iha (eb :: restb) s
      · simp only [pearsonGo]
        rw [if_neg (by omega), if_neg (by omega), if_neg (by omega), if_neg (by omega)]
        rw [accumStats_swap]
        exact iha restb (accumStats s ea eb)
      · simp only [pearsonGo]
        rw [if_pos hgt, if_neg (by omega), if_pos hgt]
        exact ihb s
/-- C3: two rows that share no column index have pearson correlation exactly
0.0: the merge loop finds no shared column, the count n stays 0, and the
zero branch of corr.rs lines 34-36 returns 0.0. -/
theorem pearson_no_overlap (a b : Row)
    (h : ∀ ea ∈ a, ∀ eb ∈ b, ea.column ≠ eb.column) :
    pearson a b = RVal.v 0 := by
  have h0 : pearsonLoop a b initStats = initStats := pearsonLoop_disjoint a b initStats h
  simp only [pearson, h0]
  rfl

/-- Witness: pearson_no_overlap applied to two concrete disjoint rows. -/
theorem pearson_no_overlap_witness :
    pearson [⟨0, Fq.val 1⟩] [⟨1, Fq.val 2⟩] = RVal.v 0 :=
  pearson_no_overlap _ _ (by decide)

/-- C5: pearson is symmetric in its two arguments: the merge visits the same
shared columns in either order, the accumulators trade roles, and the
numerator and radicand are invariant under that exchange. -/
theorem pearson_symm (a b : Row) : pearson a b = pearson b a := by
  have h := pearsonLoop_swap a b initStats
  have hinit : swapStats initStats = initStats := rfl
  rw [hinit] at h
  simp only [pearson, h, swapStats]
  rcases hn : (pearsonLoop a b initStats).n with _ | k
  · simp
  · rw [Fq.mul_comm
      ((pearsonLoop a b initStats).sum_squared_b -
        (pearsonLoop a b initStats).sum_b * (pearsonLoop a b initStats).sum_b /
          Fq.val ((k + 1 : ℕ) : ℚ))
      ((pearsonLoop a b initStats).sum_squared_a -
        (pearsonLoop a b initStats).sum_a * (pearsonLoop a b initStats).sum_a /
          Fq.val ((k + 1 : ℕ) : ℚ))]
    rw [Fq.mul_comm (pearsonLoop a b initStats).sum_b (pearsonLoop a b initStats).sum_a]

/-! The merge loop of a row against itself, and the self-correlation value. -/

theorem Fq.isVal_iff (x : Fq) : x.isVal = true ↔ ∃ q, x = Fq.val q := by
  cases x <;> simp [Fq.isVal]

theorem sum_sq_nonneg (l : List ℚ) : 0 ≤ ((l.map (fun x => x * x)).sum) := by
  induction l with
  | nil => simp
  | cons x t ih => simp only [List.map_cons, List.sum_cons]; nlinarith [sq_nonneg x]

theorem sq_sum_le (l : List ℚ) :
    l.sum * l.sum ≤ (l.length : ℚ) * ((l.map (fun x => x * x)).sum) := by
  induction l with
  | nil => simp
  | cons x t ih =>
    simp only [List.map_cons, List.sum_cons, List.length_cons]
    push_cast
    set N : ℚ := (t.length : ℚ) with hN
    set S : ℚ := t.sum with hS
    set Q : ℚ := ((t.map (fun x => x * x)).sum) with hQdef
    have hB : 0 ≤ N * Q - S * S := by linarith [ih]
    have hQ : 0 ≤ Q := sum_sq_nonneg t
    have hn : 0 ≤ N := by rw [hN]; positivity
    have key : N * ((N + 1) * (x * x + Q) - (x + S) * (x + S)) =
        (S - N * x) ^ 2 + (N + 1) * (N * Q - S * S) := by ring
    rcases eq_or_lt_of_le hn with hn0 | hnpos
    · have hSS : S * S = 0 := by nlinarith [hB, mul_self_nonneg S]
      have hS0 : S = 0 := mul_self_eq_zero.mp hSS
      rw [← hn0, hS0]
      nlinarith [hQ]
    · have hsum : 0 ≤ (S - N * x) ^ 2 + (N + 1) * (N * Q - S * S) :=
        add_nonneg (sq_nonneg _) (mul_nonneg (by linarith) hB)
      have hng : 0 ≤ N * ((N + 1) * (x * x + Q) - (x + S) * (x + S)) := by
        rw [key]; exact hsum
      by_contra hcon
      push_neg at hcon
      have : N * ((N + 1) * (x * x + Q) - (x + S) * (x + S)) < 0 :=
        mul_neg_of_pos_of_neg hnpos (by linarith)
      linarith [hng]

theorem selfD_nonneg (a : Row) (hne : a ≠ []) : 0 ≤ selfD a := by
  have hlen : 0 < (a.length : ℚ) := by
    have : 0 < a.length := List.length_pos.mpr hne
    exact_mod_cast this
  have h := sq_sum_le (rowVals a)
  have hlen2 : (rowVals a).length = a.length := by simp [rowVals]
  rw [hlen2] at h
  rw [selfD, sub_nonneg, div_le_iff₀ hlen]
  linarith [h]

theorem rowVals_const (a : Row) (c : ℚ) (hc : ∀ e ∈ a, e.value = Fq.val c) :
    rowVals a = List.replicate a.length c := by
  induction a with
  | nil => simp [rowVals]
  | cons e t ih =>
    simp only [rowVals, List.map_cons, List.length_cons, List.replicate_succ]
    rw [hc e (List.mem_cons_self e t)]
    have ht := ih (fun x hx => hc x (List.mem_cons_of_mem e hx))
    simp only [rowVals] at ht
    rw [ht]
    simp [Fq.toRat]

theorem selfD_const (a : Row) (c : ℚ) (hc : ∀ e ∈ a, e.value = Fq.val c) :
    selfD a = 0 := by
  rcases List.eq_nil_or_concat a with rfl | hne0
  · simp [selfD, rowVals]
  · have hne : a ≠ [] := by rcases hne0 with ⟨t, x, rfl⟩; simp
    have hlen : (a.length : ℚ) ≠ 0 := by
      have : 0 < a.length := List.length_pos.mpr hne
      positivity
    rw [selfD, rowVals_const a c hc]
    simp [List.sum_replicate, List.map_replicate, smul_eq_mul]
    field_simp
    ring

theorem pearsonLoop_self_cons (e : Entry) (t : Row) (s : Stats) :
    pearsonLoop (e :: t) (e :: t) s = pearsonLoop t t (accumStats s e e) := by
  simp [pearsonLoop, pearsonGo]

theorem pearsonLoop_self (a : Row) (hv : ∀ e ∈ a, e.value.isVal = true) :
    ∀ (n0 : ℕ) (sa sqa sb sqb ps : ℚ),
      pearsonLoop a a ⟨n0, Fq.val sa, Fq.val sqa, Fq.val sb, Fq.val sqb, Fq.val ps⟩ =
        ⟨n0 + a.length,
         Fq.val (sa + (rowVals a).sum),
         Fq.val (sqa + ((rowVals a).map (fun x => x * x)).sum),
         Fq.val (sb + (rowVals a).sum),
         Fq.val (sqb + ((rowVals a).map (fun x => x * x)).sum),
         Fq.val (ps + ((rowVals a).map (fun x => x * x)).sum)⟩ := by
  induction a with
  | nil => intro n0 sa sqa sb sqb ps; simp [pearsonLoop, rowVals]
  | cons e t ih =>
    intro n0 sa sqa sb sqb ps
    obtain ⟨q, hq⟩ := (Fq.isVal_iff e.value).mp (hv e (List.mem_cons_self e t))
    rw [pearsonLoop_self_cons]
    simp only [accumStats, hq, Fq.val_add_val, Fq.val_mul_val]
    rw [ih (fun x hx => hv x (List.mem_cons_of_mem e hx))]
    simp only [rowVals, List.map_cons, List.sum_cons, List.length_cons, Fq.toRat, hq,
      Stats.mk.injEq]
    refine ⟨by omega, congrArg Fq.val (by ring), congrArg Fq.val (by ring),
      congrArg Fq.val (by ring), congrArg Fq.val (by ring), congrArg Fq.val (by ring)⟩

theorem sqrtQuot_self (d : ℚ) (hd : 0 < d) :
    sqrtQuot (Fq.val d) (Fq.val (d * d)) = RVal.v 1 := by
  simp only [sqrtQuot]
  have hcast : ((d * d : ℚ) : ℝ) = (d : ℝ) * (d : ℝ) := by push_cast; ring
  rw [hcast, Real.sqrt_mul_self (by positivity)]
  rw [div_self (by positivity)]

/-- The value of `pearson` on a row against itself: 1.0 exactly when the
self-radicand `Σv² - (Σv)²/n` exceeds the denominator guard, 0.0 otherwise. -/
theorem pearson_self_eval (a : Row) (hv : ∀ e ∈ a, e.value.isVal = true)
    (hne : a ≠ []) :
    pearson a a = (if (1 : ℚ) / 1000000 < selfD a then RVal.v 1 else RVal.v 0) := by
  have hlen : 0 < a.length := List.length_pos.mpr hne
  have hlenq : ((a.length : ℕ) : ℚ) ≠ 0 := by positivity
  have hloop := pearsonLoop_self a hv 0 0 0 0 0 0
  simp only [zero_add] at hloop
  simp only [pearson, hloop, initStats]
  rw [if_neg (by omega)]
  have hnum : Fq.val (((a.length : ℕ) : ℚ)) = Fq.val ((a.length : ℕ) : ℚ) := rfl
  set S := (rowVals a).sum
  set S2 := ((rowVals a).map (fun x => x * x)).sum
  have hdiv : Fq.val S * Fq.val S / Fq.val ((a.length : ℕ) : ℚ) =
      Fq.val (S * S / ((a.length : ℕ) : ℚ)) := by
    rw [Fq.val_mul_val, Fq.val_div_val _ _ hlenq]
  have hd : S2 - S * S / ((a.length : ℕ) : ℚ) = selfD a := by
    simp [selfD, S, S2]
  rw [hdiv, Fq.val_sub_val, hd]
  rw [Fq.val_mul_val]
  by_cases hguard : (1 : ℚ) / 1000000 < selfD a
  · have h12 : (1 : ℚ) / 1000000000000 < selfD a * selfD a := by nlinarith
    rw [if_pos hguard]
    have : sqrtGtMillionth (Fq.val (selfD a * selfD a)) = true := by
      simp only [sqrtGtMillionth, decide_eq_true_eq]
      exact h12
    rw [if_pos this]
    exact sqrtQuot_self (selfD a) (by nlinarith)
  · have hd0 : 0 ≤ selfD a := selfD_nonneg a hne
    have h12 : ¬ ((1 : ℚ) / 1000000000000 < selfD a * selfD a) := by
      push_neg at hguard ⊢
      nlinarith
    rw [if_neg hguard]
    have : sqrtGtMillionth (Fq.val (selfD a * selfD a)) = false := by
      simp only [sqrtGtMillionth, decide_eq_false_iff_not]
      exact h12
    rw [if_neg (by simp [this])]

/-- C4 counterexample: a two-entry row with values 0 and 1/1000 has strictly
positive variance (its self-radicand is 1/2000000), yet `pearson(a,a)` is
0.0, not 1.0: the denominator `sqrt((1/2000000)²) = 1/2000000` does not
exceed the 1e-6 guard of corr.rs line 41. -/
theorem pearson_self_nonzero_variance_zero :
    0 < selfD [⟨0, Fq.val 0⟩, ⟨1, Fq.val (1 / 1000)⟩] ∧
    ([⟨0, Fq.val 0⟩, ⟨1, Fq.val (1 / 1000)⟩] : Row) ≠ [] ∧
    pearson [⟨0, Fq.val 0⟩, ⟨1, Fq.val (1 / 1000)⟩]
      [⟨0, Fq.val 0⟩, ⟨1, Fq.val (1 / 1000)⟩] = RVal.v 0 ∧
    pearson [⟨0, Fq.val 0⟩, ⟨1, Fq.val (1 / 1000)⟩]
      [⟨0, Fq.val 0⟩, ⟨1, Fq.val (1 / 1000)⟩] ≠ RVal.v 1 := by
  have hd : selfD [⟨0, Fq.val 0⟩, ⟨1, Fq.val (1 / 1000)⟩] = 1 / 2000000 := by
    simp [selfD, rowVals, Fq.toRat]
    norm_num
  have hev := pearson_self_eval [⟨0, Fq.val 0⟩, ⟨1, Fq.val (1 / 1000)⟩]
    (by intro e he
        simp only [List.mem_cons, List.not_mem_nil, or_false] at he
        rcases he with rfl | rfl <;> rfl) (by simp)
  rw [hd] at hev
  rw [if_neg (by norm_num)] at hev
  refine ⟨by rw [hd]; norm_num, by simp, hev, ?_⟩
  rw [hev]
  intro h
  have : (0 : ℝ) = 1 := by injection h
  norm_num at this

/-- C4 (amended): for a row with at least one entry and finite rational
values, `pearson(a,a)` is 1.0 exactly when the self-radicand
`Σv² - (Σv)²/n` exceeds 1e-6 (so that the guarded denominator exceeds
1e-6); whenever that quantity is at most 1e-6 — including every row with
tiny but nonzero variance — the result is 0.0, and in particular a constant
row self-correlates as 0.0. -/
theorem pearson_self_guarded (a : Row) (hv : ∀ e ∈ a, e.value.isVal = true)
    (hne : a ≠ []) :
    ((1 : ℚ) / 1000000 < selfD a → pearson a a = RVal.v 1) ∧
    (selfD a ≤ 1 / 1000000 → pearson a a = RVal.v 0) ∧
    (∀ c : ℚ, (∀ e ∈ a, e.value = Fq.val c) → pearson a a = RVal.v 0) := by
  have hev := pearson_self_eval a hv hne
  refine ⟨fun h => by rw [hev, if_pos h], fun h => by rw [hev, if_neg (by linarith)], ?_⟩
  intro c hc
  have h0 := selfD_const a c hc
  rw [hev, if_neg (by rw [h0]; norm_num)]

/-- Witness: pearson_self_guarded applied to the row [(0, 0.0), (1, 1.0)],
whose self-radicand 1/2 exceeds the guard, giving self-correlation 1.0. -/
theorem pearson_self_guarded_witness :
    pearson [⟨0, Fq.val 0⟩, ⟨1, Fq.val 1⟩] [⟨0, Fq.val 0⟩, ⟨1, Fq.val 1⟩] = RVal.v 1 := by
  have h := (pearson_self_guarded [⟨0, Fq.val 0⟩, ⟨1, Fq.val 1⟩]
    (by intro e he
        simp only [List.mem_cons, List.not_mem_nil, or_false] at he
        rcases he with rfl | rfl <;> rfl) (by simp)).1
  apply h
  simp [selfD, rowVals, Fq.toRat]
  norm_num

/-! Characterisation of the assignment phase. -/

theorem listSet_getElem?_self {α : Type} (l : List α) (i : ℕ) (v : α) :
    (l.set i v)[i]? = (l[i]?).map (fun _ => v) := by
  rw [List.getElem?_set]
  by_cases h : i < l.length
  · simp [h, List.getElem?_eq_getElem h]
  · have : l[i]? = none := by
      rw [List.getElem?_eq_none_iff]
      omega
    simp [h, this]

theorem get_nearest_congr (m1 m2 : Model) (row : Row)
    (h1 : m1.centroids = m2.centroids) (h2 : m1.cluster_count = m2.cluster_count) :
    m1.get_nearest_centroid row = m2.get_nearest_centroid row := by
  have hstep : nearest_step m1 row = nearest_step m2 row := by
    funext acc i
    simp only [nearest_step, Csr.get_row, h1]
  simp only [Model.get_nearest_centroid, hstep, h2]

theorem assign_step_const (matrix : Csr) (acc : Model × ℕ) (i : ℕ) :
    (assign_step matrix acc i).1.row_count = acc.1.row_count ∧
    (assign_step matrix acc i).1.column_count = acc.1.column_count ∧
    (assign_step matrix acc i).1.cluster_count = acc.1.cluster_count ∧
    (assign_step matrix acc i).1.centroids = acc.1.centroids ∧
    (assign_step matrix acc i).1.row_clusters.length = acc.1.row_clusters.length := by
  by_cases h : (matrix.get_row i).length < 3 <;>
    simp [assign_step, h, List.length_set]

theorem assign_range_const (matrix : Csr) (acc : Model × ℕ) : ∀ (n : ℕ),
    ((List.range n).foldl (assign_step matrix) acc).1.row_count = acc.1.row_count ∧
    ((List.range n).foldl (assign_step matrix) acc).1.column_count = acc.1.column_count ∧
    ((List.range n).foldl (assign_step matrix) acc).1.cluster_count = acc.1.cluster_count ∧
    ((List.range n).foldl (assign_step matrix) acc).1.centroids = acc.1.centroids ∧
    ((List.range n).foldl (assign_step matrix) acc).1.row_clusters.length =
      acc.1.row_clusters.length := by
  intro n
  induction n with
  | zero => exact ⟨rfl, rfl, rfl, rfl, rfl⟩
  | succ n ih =>
    rw [foldl_range_succ]
    have h2 := assign_step_const matrix ((List.range n).foldl (assign_step matrix) acc) n
    exact ⟨h2.1.trans ih.1, h2.2.1.trans ih.2.1, h2.2.2.1.trans ih.2.2.1,
      h2.2.2.2.1.trans ih.2.2.2.1, h2.2.2.2.2.trans ih.2.2.2.2⟩

theorem assign_range_getElem? (matrix : Csr) (acc : Model × ℕ) (n j : ℕ) :
    ((List.range n).foldl (assign_step matrix) acc).1.row_clusters[j]? =
      (if j < n ∧ 3 ≤ (matrix.get_row j).length
       then (acc.1.row_clusters[j]?).map
         (fun _ => some (acc.1.get_nearest_centroid (matrix.get_row j)))
       else acc.1.row_clusters[j]?) := by
  induction n with
  | zero => simp
  | succ n ih =>
    rw [foldl_range_succ]
    have hconst := assign_range_const matrix acc n
    have hnear : ∀ r, (((List.range n).foldl (assign_step matrix) acc).1).get_nearest_centroid r =
        acc.1.get_nearest_centroid r :=
      fun r => get_nearest_congr _ _ r hconst.2.2.2.1 hconst.2.2.1
    by_cases hproc : (matrix.get_row n).length < 3
    · have hstep : assign_step matrix ((List.range n).foldl (assign_step matrix) acc) n =
          (List.range n).foldl (assign_step matrix) acc := by
        simp [assign_step, hproc]
      rw [hstep, ih]
      by_cases hj : j = n
      · subst hj
        have hnp : ¬ 3 ≤ (matrix.get_row j).length := by omega
        simp [hnp]
      · have : (j < n + 1 ∧ 3 ≤ (matrix.get_row j).length) ↔
            (j < n ∧ 3 ≤ (matrix.get_row j).length) := by
          constructor
          · rintro ⟨h1, h2⟩; exact ⟨by omega, h2⟩
          · rintro ⟨h1, h2⟩; exact ⟨by omega, h2⟩
        simp only [this]
    · have hstep : (assign_step matrix ((List.range n).foldl (assign_step matrix) acc) n).1.row_clusters =
          (((List.range n).foldl (assign_step matrix) acc).1.row_clusters.set n
            (some (acc.1.get_nearest_centroid (matrix.get_row n)))) := by
        simp only [assign_step, if_neg hproc]
        rw [hnear]
      rw [hstep]
      by_cases hj : j = n
      · subst hj
        rw [listSet_getElem?_self, ih]
        have hjn : ¬ (j < j ∧ 3 ≤ (matrix.get_row j).length) := by
          rintro ⟨h1, h2⟩
          omega
        have hj1 : j < j + 1 ∧ 3 ≤ (matrix.get_row j).length := ⟨by omega, by omega⟩
        rw [if_neg hjn, if_pos hj1]
      · rw [List.getElem?_set_ne (fun he => hj he.symm), ih]
        have : (j < n + 1 ∧ 3 ≤ (matrix.get_row j).length) ↔
            (j < n ∧ 3 ≤ (matrix.get_row j).length) := by
          constructor
          · rintro ⟨h1, h2⟩; refine ⟨by omega, h2⟩
          · rintro ⟨h1, h2⟩; exact ⟨by omega, h2⟩
        simp only [this]

theorem assign_range_count (matrix : Csr) (acc : Model × ℕ) (n : ℕ) :
    ((List.range n).foldl (assign_step matrix) acc).2 =
      acc.2 + ((List.range n).filter (fun j =>
        decide (3 ≤ (matrix.get_row j).length) &&
        decide (some (acc.1.get_nearest_centroid (matrix.get_row j)) ≠
          acc.1.row_clusters.getD j none))).length := by
  induction n with
  | zero => simp
  | succ n ih =>
    rw [foldl_range_succ]
    have hconst := assign_range_const matrix acc n
    have hnear : ∀ r, (((List.range n).foldl (assign_step matrix) acc).1).get_nearest_centroid r =
        acc.1.get_nearest_centroid r :=
      fun r => get_nearest_congr _ _ r hconst.2.2.2.1 hconst.2.2.1
    have hval : ((List.range n).foldl (assign_step matrix) acc).1.row_clusters.getD n none =
        acc.1.row_clusters.getD n none := by
      rw [List.getD_eq_getElem?_getD, List.getD_eq_getElem?_getD, assign_range_getElem?]
      have hc : ¬ (n < n ∧ 3 ≤ (matrix.get_row n).length) := by
        rintro ⟨h1, h2⟩
        omega
      rw [if_neg hc]
    rw [List.range_succ, List.filter_append, List.length_append]
    simp only [List.filter_cons, List.filter_nil]
    by_cases hproc : (matrix.get_row n).length < 3
    · have hstep : assign_step matrix ((List.range n).foldl (assign_step matrix) acc) n =
          (List.range n).foldl (assign_step matrix) acc := by
        simp [assign_step, hproc]
      rw [hstep, ih]
      have hb : decide (3 ≤ (matrix.get_row n).length) = false := by
        rw [decide_eq_false_iff_not]
        omega
      rw [hb]
      simp
    · have hb : decide (3 ≤ (matrix.get_row n).length) = true := by
        rw [decide_eq_true_eq]
        omega
      rw [hb]
      by_cases hne : some (acc.1.get_nearest_centroid (matrix.get_row n)) ≠
          acc.1.row_clusters.getD n none
      · have hret : (assign_step matrix ((List.range n).foldl (assign_step matrix) acc) n).2 =
            ((List.range n).foldl (assign_step matrix) acc).2 + 1 := by
          simp only [assign_step, if_neg hproc]
          rw [hnear, hval, if_pos hne]
        rw [hret, ih]
        have hd : decide (some (acc.1.get_nearest_centroid (matrix.get_row n)) ≠
            acc.1.row_clusters.getD n none) = true := by
          rw [decide_eq_true_eq]
          exact hne
        rw [hd]
        simp only [Bool.true_and, if_pos]
        simp
        omega
      · have hret : (assign_step matrix ((List.range n).foldl (assign_step matrix) acc) n).2 =
            ((List.range n).foldl (assign_step matrix) acc).2 := by
          simp only [assign_step, if_neg hproc]
          rw [hnear, hval, if_neg hne]
        rw [hret, ih]
        have hd : decide (some (acc.1.get_nearest_centroid (matrix.get_row n)) ≠
            acc.1.row_clusters.getD n none) = false := by
          rw [decide_eq_false_iff_not]
          exact hne
        rw [hd]
        simp

/-- C6: a data row with fewer than 3 entries is skipped by the assignment
phase of `make_step`: its assignment-table entry is exactly what it was
before the call (the centroid phases never touch the table). -/
theorem make_step_skips_short_rows (m : Model) (matrix : Csr) (i : ℕ)
    (h : (matrix.get_row i).length < 3) :
    (m.make_step matrix).1.row_clusters[i]? = m.row_clusters[i]? := by
  show ((List.range m.row_count).foldl (assign_step matrix) (m, 0)).1.row_clusters[i]? = _
  rw [assign_range_getElem?]
  have hc : ¬ (i < m.row_count ∧ 3 ≤ (matrix.get_row i).length) := by
    rintro ⟨h1, h2⟩
    omega
  rw [if_neg hc]

/-- Witness: make_step_skips_short_rows on a fresh 1-row model and a data
matrix whose single row has one entry. -/
theorem make_step_skips_short_rows_witness :
    ((Model.mk_new 1 1 1 (fun _ _ => 0)).make_step ⟨[[⟨0, Fq.val 1⟩]]⟩).1.row_clusters[0]? =
      (Model.mk_new 1 1 1 (fun _ _ => 0)).row_clusters[0]? :=
  make_step_skips_short_rows _ _ 0 (by simp [Csr.get_row])

theorem nearest_range_no_update (m : Model) (row : Row) (n : ℕ)
    (h : ∀ i < n, ¬ RVal.lt (m.distance row i) RVal.inf) :
    (List.range n).foldl (nearest_step m row) (RVal.inf, 0) = (RVal.inf, 0) := by
  induction n with
  | zero => rfl
  | succ n ih =>
    rw [foldl_range_succ, ih (fun i hi => h i (by omega))]
    have hn := h n (by omega)
    simp only [Model.distance] at hn
    simp only [nearest_step]
    rw [if_neg hn]

/-- C10: when no centroid's distance compares strictly below the initial
positive infinity, the nearest-centroid scan never updates its accumulator
and returns index 0, so a processed row is assigned `Some(0)` rather than
left unassigned; concretely, a processed row facing a single centroid whose
every cell is NaN is still assigned to cluster 0 (the shared NaN cells make
the radicand NaN, the denominator guard fails, pearson returns 0.0 and the
distance is the real number 1.0, which is below infinity). -/
theorem get_nearest_default_zero :
    (∀ (m : Model) (row : Row),
      (∀ i < m.cluster_count, ¬ RVal.lt (m.distance row i) RVal.inf) →
      m.get_nearest_centroid row = 0) ∧
    (Model.make_step ⟨1, 3, 1, ⟨[[⟨0, Fq.nan⟩, ⟨1, Fq.nan⟩, ⟨2, Fq.nan⟩]]⟩, [none]⟩
      ⟨[[⟨0, Fq.val 1⟩, ⟨1, Fq.val 2⟩, ⟨2, Fq.val 5⟩]]⟩).1.row_clusters = [some 0] := by
  constructor
  · intro m row h
    unfold Model.get_nearest_centroid
    rw [nearest_range_no_update m row m.cluster_count h]
  · show ((List.range 1).foldl (assign_step ⟨[[⟨0, Fq.val 1⟩, ⟨1, Fq.val 2⟩, ⟨2, Fq.val 5⟩]]⟩)
      (⟨1, 3, 1, ⟨[[⟨0, Fq.nan⟩, ⟨1, Fq.nan⟩, ⟨2, Fq.nan⟩]]⟩, [none]⟩, 0)).1.row_clusters =
        [some 0]
    norm_num [assign_step, Model.get_nearest_centroid, nearest_step, pearson,
      pearsonLoop, pearsonGo, accumStats, initStats, sqrtGtMillionth, Csr.get_row,
      List.range_succ]

/-- Witness: the conditional part of get_nearest_default_zero at a model
with no centroids, where the scan runs over an empty range. -/
theorem get_nearest_default_zero_witness :
    Model.get_nearest_centroid ⟨0, 0, 0, ⟨[]⟩, []⟩ [] = 0 :=
  get_nearest_default_zero.1 ⟨0, 0, 0, ⟨[]⟩, []⟩ []
    (fun i hi => absurd hi (Nat.not_lt_zero i))

/-! Closure facts: the merge accumulators over finite values, and why
pearson always produces a real number. -/

theorem Fq.isVal_mulE (x y : Fq) (h : (x * y).isVal = true) :
    x.isVal = true ∧ y.isVal = true := by
  have h2 : (Fq.mul x y).isVal = true := h
  cases x <;> cases y <;>
    simp only [Fq.mul, Fq.isVal] at h2 <;>
    first
      | exact ⟨rfl, rfl⟩
      | (revert h2; split_ifs <;> simp [Fq.isVal])
      | exact absurd h2 (by simp)

theorem Fq.isVal_addE (x y : Fq) (h : (x + y).isVal = true) :
    x.isVal = true ∧ y.isVal = true := by
  have h2 : (Fq.add x y).isVal = true := h
  cases x <;> cases y <;>
    simp only [Fq.add, Fq.isVal] at h2 <;>
    first
      | exact ⟨rfl, rfl⟩
      | exact absurd h2 (by simp)

theorem Fq.isVal_neg (x : Fq) : (-x).isVal = x.isVal := by
  cases x <;> rfl

theorem Fq.isVal_subE (x y : Fq) (h : (x - y).isVal = true) :
    x.isVal = true ∧ y.isVal = true := by
  have h2 : (x + (-y)).isVal = true := h
  have h3 := Fq.isVal_addE x (-y) h2
  exact ⟨h3.1, (Fq.isVal_neg y).symm.trans h3.2⟩

theorem Fq.isVal_div_valE (x : Fq) (c : ℚ) (h : ((x / Fq.val c).isVal = true)) :
    x.isVal = true := by
  have h2 : (Fq.div x (Fq.val c)).isVal = true := h
  cases x <;> simp only [Fq.div, Fq.isVal] at h2 <;>
    first
      | rfl
      | (revert h2; split_ifs <;> simp [Fq.isVal])
      | exact absurd h2 (by simp)

theorem Fq.sq_ne_ninf (x : Fq) : x * x ≠ Fq.ninf := by
  show Fq.mul x x ≠ Fq.ninf
  cases x <;> simp [Fq.mul]

theorem Fq.add_ne_ninf (x y : Fq) (hx : x ≠ Fq.ninf) (hy : y ≠ Fq.ninf) :
    x + y ≠ Fq.ninf := by
  show Fq.add x y ≠ Fq.ninf
  cases x <;> cases y <;> simp_all [Fq.add]

theorem Fq.inf_div_val_nonneg (c : ℚ) (h : 0 ≤ c) : Fq.inf / Fq.val c = Fq.inf := by
  show Fq.div _ _ = _
  simp [Fq.div, h]

theorem Fq.inf_sub_inf : Fq.inf - Fq.inf = Fq.nan := rfl

@[simp] theorem statsFold_nil (s : Stats) : statsFold [] s = s := rfl

@[simp] theorem statsFold_cons (p : Entry × Entry) (ps : List (Entry × Entry)) (s : Stats) :
    statsFold (p :: ps) s = statsFold ps (accumStats s p.1 p.2) := rfl

theorem statsFold_n (ps : List (Entry × Entry)) : ∀ s : Stats,
    (statsFold ps s).n = s.n + ps.length := by
  induction ps with
  | nil => intro s; simp
  | cons p t ih => intro s; rw [statsFold_cons, ih]; simp [accumStats]; omega

theorem statsFold_s2a_back (ps : List (Entry × Entry)) : ∀ s : Stats,
    (statsFold ps s).sum_squared_a.isVal = true →
      s.sum_squared_a.isVal = true ∧ ∀ p ∈ ps, p.1.value.isVal = true := by
  induction ps with
  | nil => intro s h; exact ⟨h, by simp⟩
  | cons p t ih =>
    intro s h
    rw [statsFold_cons] at h
    obtain ⟨h1, h2⟩ := ih (accumStats s p.1 p.2) h
    have h3 := Fq.isVal_addE _ _ h1
    have h4 := Fq.isVal_mulE _ _ h3.2
    refine ⟨h3.1, ?_⟩
    intro q hq
    rcases List.mem_cons.mp hq with rfl | hq2
    · exact h4.1
    · exact h2 q hq2

theorem statsFold_s2b_back (ps : List (Entry × Entry)) : ∀ s : Stats,
    (statsFold ps s).sum_squared_b.isVal = true →
      s.sum_squared_b.isVal = true ∧ ∀ p ∈ ps, p.2.value.isVal = true := by
  induction ps with
  | nil => intro s h; exact ⟨h, by simp⟩
  | cons p t ih =>
    intro s h
    rw [statsFold_cons] at h
    obtain ⟨h1, h2⟩ := ih (accumStats s p.1 p.2) h
    have h3 := Fq.isVal_addE _ _ h1
    have h4 := Fq.isVal_mulE _ _ h3.2
    refine ⟨h3.1, ?_⟩
    intro q hq
    rcases List.mem_cons.mp hq with rfl | hq2
    · exact h4.1
    · exact h2 q hq2

theorem statsFold_sa_back (ps : List (Entry × Entry)) : ∀ s : Stats,
    (statsFold ps s).sum_a.isVal = true →
      s.sum_a.isVal = true ∧ ∀ p ∈ ps, p.1.value.isVal = true := by
  induction ps with
  | nil => intro s h; exact ⟨h, by simp⟩
  | cons p t ih =>
    intro s h
    rw [statsFold_cons] at h
    obtain ⟨h1, h2⟩ := ih (accumStats s p.1 p.2) h
    have h3 := Fq.isVal_addE _ _ h1
    refine ⟨h3.1, ?_⟩
    intro q hq
    rcases List.mem_cons.mp hq with rfl | hq2
    · exact h3.2
    · exact h2 q hq2

theorem statsFold_sb_back (ps : List (Entry × Entry)) : ∀ s : Stats,
    (statsFold ps s).sum_b.isVal = true →
      s.sum_b.isVal = true ∧ ∀ p ∈ ps, p.2.value.isVal = true := by
  induction ps with
  | nil => intro s h; exact ⟨h, by simp⟩
  | cons p t ih =>
    intro s h
    rw [statsFold_cons] at h
    obtain ⟨h1, h2⟩ := ih (accumStats s p.1 p.2) h
    have h3 := Fq.isVal_addE _ _ h1
    refine ⟨h3.1, ?_⟩
    intro q hq
    rcases List.mem_cons.mp hq with rfl | hq2
    · exact h3.2
    · exact h2 q hq2

theorem statsFold_sa_fwd (ps : List (Entry × Entry)) : ∀ s : Stats,
    s.sum_a.isVal = true → (∀ p ∈ ps, p.1.value.isVal = true) →
      (statsFold ps s).sum_a.isVal = true := by
  induction ps with
  | nil => intro s h _; exact h
  | cons p t ih =>
    intro s h hall
    rw [statsFold_cons]
    refine ih _ ?_ (fun q hq => hall q (List.mem_cons_of_mem p hq))
    obtain ⟨x, hx⟩ := (Fq.isVal_iff _).mp h
    obtain ⟨y, hy⟩ := (Fq.isVal_iff _).mp (hall p (List.mem_cons_self p t))
    simp [accumStats, hx, hy, Fq.isVal]

theorem statsFold_sb_fwd (ps : List (Entry × Entry)) : ∀ s : Stats,
    s.sum_b.isVal = true → (∀ p ∈ ps, p.2.value.isVal = true) →
      (statsFold ps s).sum_b.isVal = true := by
  induction ps with
  | nil => intro s h _; exact h
  | cons p t ih =>
    intro s h hall
    rw [statsFold_cons]
    refine ih _ ?_ (fun q hq => hall q (List.mem_cons_of_mem p hq))
    obtain ⟨x, hx⟩ := (Fq.isVal_iff _).mp h
    obtain ⟨y, hy⟩ := (Fq.isVal_iff _).mp (hall p (List.mem_cons_self p t))
    simp [accumStats, hx, hy, Fq.isVal]

theorem statsFold_ps_fwd (ps : List (Entry × Entry)) : ∀ s : Stats,
    s.product_sum.isVal = true →
    (∀ p ∈ ps, p.1.value.isVal = true ∧ p.2.value.isVal = true) →
      (statsFold ps s).product_sum.isVal = true := by
  induction ps with
  | nil => intro s h _; exact h
  | cons p t ih =>
    intro s h hall
    rw [statsFold_cons]
    refine ih _ ?_ (fun q hq => hall q (List.mem_cons_of_mem p hq))
    obtain ⟨x, hx⟩ := (Fq.isVal_iff _).mp h
    obtain ⟨y, hy⟩ := (Fq.isVal_iff _).mp (hall p (List.mem_cons_self p t)).1
    obtain ⟨z, hz⟩ := (Fq.isVal_iff _).mp (hall p (List.mem_cons_self p t)).2
    simp [accumStats, hx, hy, hz, Fq.isVal]

theorem statsFold_s2a_ne_ninf (ps : List (Entry × Entry)) : ∀ s : Stats,
    s.sum_squared_a ≠ Fq.ninf → (statsFold ps s).sum_squared_a ≠ Fq.ninf := by
  induction ps with
  | nil => intro s h; exact h
  | cons p t ih =>
    intro s h
    rw [statsFold_cons]
    exact ih _ (Fq.add_ne_ninf _ _ h (Fq.sq_ne_ninf _))

theorem statsFold_s2b_ne_ninf (ps : List (Entry × Entry)) : ∀ s : Stats,
    s.sum_squared_b ≠ Fq.ninf → (statsFold ps s).sum_squared_b ≠ Fq.ninf := by
  induction ps with
  | nil => intro s h; exact h
  | cons p t ih =>
    intro s h
    rw [statsFold_cons]
    exact ih _ (Fq.add_ne_ninf _ _ h (Fq.sq_ne_ninf _))

theorem pearsonLoop_statsFold : ∀ (a b : List Entry) (s : Stats),
    ∃ ps : List (Entry × Entry), pearsonLoop a b s = statsFold ps s := by
  intro a
  induction a with
  | nil => intro b s; exact ⟨[], rfl⟩
  | cons ea resta iha =>
    intro b
    induction b with
    | nil => intro s; exact ⟨[], rfl⟩
    | cons eb restb ihb =>
      intro s
      show ∃ ps, pearsonGo (pearsonLoop resta) ea (eb :: restb) s = statsFold ps s
      rcases Nat.lt_trichotomy ea.column eb.column with hlt | heq | hgt
      · obtain ⟨ps, hps⟩ := iha (eb :: restb) s
        refine ⟨ps, ?_⟩
        simp only [pearsonGo]
        rw [if_pos hlt]
        exact hps
      · obtain ⟨ps, hps⟩ := iha restb (accumStats s ea eb)
        refine ⟨(ea, eb) :: ps, ?_⟩
        simp only [pearsonGo]
        rw [if_neg (by omega), if_neg (by omega)]
        rw [statsFold_cons]
        exact hps
      · obtain ⟨ps, hps⟩ := ihb s
        refine ⟨ps, ?_⟩
        simp only [pearsonGo]
        rw [if_neg (by omega), if_pos hgt]
        exact hps

theorem statsFold_s2a_fwd (ps : List (Entry × Entry)) : ∀ s : Stats,
    s.sum_squared_a.isVal = true → (∀ p ∈ ps, p.1.value.isVal = true) →
      (statsFold ps s).sum_squared_a.isVal = true := by
  induction ps with
  | nil => intro s h _; exact h
  | cons p t ih =>
    intro s h hall
    rw [statsFold_cons]
    refine ih _ ?_ (fun q hq => hall q (List.mem_cons_of_mem p hq))
    obtain ⟨x, hx⟩ := (Fq.isVal_iff _).mp h
    obtain ⟨y, hy⟩ := (Fq.isVal_iff _).mp (hall p (List.mem_cons_self p t))
    simp [accumStats, hx, hy, Fq.isVal]

theorem statsFold_s2b_fwd (ps : List (Entry × Entry)) : ∀ s : Stats,
    s.sum_squared_b.isVal = true → (∀ p ∈ ps, p.2.value.isVal = true) →
      (statsFold ps s).sum_squared_b.isVal = true := by
  induction ps with
  | nil => intro s h _; exact h
  | cons p t ih =>
    intro s h hall
    rw [statsFold_cons]
    refine ih _ ?_ (fun q hq => hall q (List.mem_cons_of_mem p hq))
    obtain ⟨x, hx⟩ := (Fq.isVal_iff _).mp h
    obtain ⟨y, hy⟩ := (Fq.isVal_iff _).mp (hall p (List.mem_cons_self p t))
    simp [accumStats, hx, hy, Fq.isVal]

/-- One radicand factor `Σv² - (Σv)²/n` is either a finite rational or NaN:
never an infinity (for a positive count n, with the two sums linked as in
the merge loop). -/
theorem side_classify (s2 sa : Fq) (c : ℚ) (hc0 : 0 ≤ c) (hcne : c ≠ 0)
    (hs2_ne : s2 ≠ Fq.ninf)
    (hlink : s2.isVal = true ↔ sa.isVal = true) :
    (s2 - sa * sa / Fq.val c).isVal = true ∨ s2 - sa * sa / Fq.val c = Fq.nan := by
  by_cases hv : s2.isVal = true
  · obtain ⟨p, hp⟩ := (Fq.isVal_iff _).mp hv
    obtain ⟨q, hq⟩ := (Fq.isVal_iff _).mp (hlink.mp hv)
    left
    rw [hp, hq, Fq.val_mul_val, Fq.val_div_val _ _ hcne, Fq.val_sub_val]
    rfl
  · right
    have hsa : ¬ sa.isVal = true := fun h => hv (hlink.mpr h)
    have hdiv : sa * sa / Fq.val c = Fq.nan ∨ sa * sa / Fq.val c = Fq.inf := by
      cases sa with
      | nan => left; rw [Fq.nan_mul, Fq.nan_div]
      | inf =>
        right
        have hsq : Fq.inf * Fq.inf = Fq.inf := rfl
        rw [hsq, Fq.inf_div_val_nonneg c hc0]
      | ninf =>
        right
        have hsq : Fq.ninf * Fq.ninf = Fq.inf := rfl
        rw [hsq, Fq.inf_div_val_nonneg c hc0]
      | val q => exact absurd rfl hsa
    cases s2 with
    | nan => rw [Fq.nan_sub]
    | inf =>
      rcases hdiv with h | h
      · rw [h, Fq.sub_nan]
      · rw [h]
        exact Fq.inf_sub_inf
    | ninf => exact absurd rfl hs2_ne
    | val p => exact absurd rfl hv

/-- pearson always produces a real number `RVal.v`: with no shared column or
a failed guard the result is 0.0, and a passed guard forces every
accumulator to be a finite rational, so the quotient is a real number.  In
particular pearson never returns NaN or an infinity, whatever special
values the rows contain. -/
theorem pearson_isV (a b : Row) : ∃ x, pearson a b = RVal.v x := by
  obtain ⟨ps, hps⟩ := pearsonLoop_statsFold a b initStats
  by_cases hn : (pearsonLoop a b initStats).n = 0
  · exact ⟨0, by simp only [pearson]; rw [if_pos hn]⟩
  · have hnps : ¬ (statsFold ps initStats).n = 0 := by rw [← hps]; exact hn
    have hcne : (((statsFold ps initStats).n : ℕ) : ℚ) ≠ 0 := Nat.cast_ne_zero.mpr hnps
    have hc0 : (0 : ℚ) ≤ (((statsFold ps initStats).n : ℕ) : ℚ) := Nat.cast_nonneg _
    have hlinka : (statsFold ps initStats).sum_squared_a.isVal = true ↔
        (statsFold ps initStats).sum_a.isVal = true := by
      constructor
      · intro h
        exact statsFold_sa_fwd ps initStats rfl (statsFold_s2a_back ps initStats h).2
      · intro h
        exact statsFold_s2a_fwd ps initStats rfl (statsFold_sa_back ps initStats h).2
    have hlinkb : (statsFold ps initStats).sum_squared_b.isVal = true ↔
        (statsFold ps initStats).sum_b.isVal = true := by
      constructor
      · intro h
        exact statsFold_sb_fwd ps initStats rfl (statsFold_s2b_back ps initStats h).2
      · intro h
        exact statsFold_s2b_fwd ps initStats rfl (statsFold_sb_back ps initStats h).2
    have hninfa : (statsFold ps initStats).sum_squared_a ≠ Fq.ninf :=
      statsFold_s2a_ne_ninf ps initStats (by simp [initStats])
    have hninfb : (statsFold ps initStats).sum_squared_b ≠ Fq.ninf :=
      statsFold_s2b_ne_ninf ps initStats (by simp [initStats])
    have hfa := side_classify (statsFold ps initStats).sum_squared_a
      (statsFold ps initStats).sum_a _ hc0 hcne hninfa hlinka
    have hfb := side_classify (statsFold ps initStats).sum_squared_b
      (statsFold ps initStats).sum_b _ hc0 hcne hninfb hlinkb
    simp only [pearson, hps]
    rw [if_neg hnps]
    rcases hfa with hfa | hfa
    · rcases hfb with hfb | hfb
      · obtain ⟨ra, hra⟩ := (Fq.isVal_iff _).mp hfa
        obtain ⟨rb, hrb⟩ := (Fq.isVal_iff _).mp hfb
        have hs2a := (Fq.isVal_subE _ _ hfa).1
        have hs2b := (Fq.isVal_subE _ _ hfb).1
        have hall1 := (statsFold_s2a_back ps initStats hs2a).2
        have hall2 := (statsFold_s2b_back ps initStats hs2b).2
        have hps_v : (statsFold ps initStats).product_sum.isVal = true :=
          statsFold_ps_fwd ps initStats rfl (fun p hp => ⟨hall1 p hp, hall2 p hp⟩)
        have hsa_v : (statsFold ps initStats).sum_a.isVal = true :=
          statsFold_sa_fwd ps initStats rfl hall1
        have hsb_v : (statsFold ps initStats).sum_b.isVal = true :=
          statsFold_sb_fwd ps initStats rfl hall2
        obtain ⟨pv, hpv⟩ := (Fq.isVal_iff _).mp hps_v
        obtain ⟨sav, hsav⟩ := (Fq.isVal_iff _).mp hsa_v
        obtain ⟨sbv, hsbv⟩ := (Fq.isVal_iff _).mp hsb_v
        rw [hra, hrb, Fq.val_mul_val, hpv, hsav, hsbv, Fq.val_mul_val,
          Fq.val_div_val _ _ hcne, Fq.val_sub_val]
        by_cases hg : sqrtGtMillionth (Fq.val (ra * rb)) = true
        · rw [if_pos hg]
          exact ⟨_, rfl⟩
        · rw [if_neg hg]
          exact ⟨0, rfl⟩
      · rw [hfb, Fq.mul_nan]
        rw [if_neg (by simp [sqrtGtMillionth])]
        exact ⟨0, rfl⟩
    · rw [hfa, Fq.nan_mul]
      rw [if_neg (by simp [sqrtGtMillionth])]
      exact ⟨0, rfl⟩

theorem distance_isV (m : Model) (row : Row) (i : ℕ) :
    m.distance row i = RVal.v ((m.distance row i).toReal) := by
  obtain ⟨x, hx⟩ := pearson_isV row (m.centroids.get_row i)
  simp [Model.distance, hx, RVal.sub, RVal.toReal]

theorem distance_real (m : Model) (row : Row) (i : ℕ) :
    RVal.sub (RVal.v 1) (pearson row (m.centroids.get_row i)) =
      RVal.v ((m.distance row i).toReal) := distance_isV m row i

theorem nearest_range_argmin (m : Model) (row : Row) : ∀ n : ℕ, 0 < n →
    ((List.range n).foldl (nearest_step m row) (RVal.inf, 0)).2 < n ∧
    ((List.range n).foldl (nearest_step m row) (RVal.inf, 0)).1 =
      m.distance row (((List.range n).foldl (nearest_step m row) (RVal.inf, 0)).2) ∧
    (∀ j < n,
      (m.distance row (((List.range n).foldl (nearest_step m row) (RVal.inf, 0)).2)).toReal ≤
        (m.distance row j).toReal) ∧
    (∀ j < ((List.range n).foldl (nearest_step m row) (RVal.inf, 0)).2,
      (m.distance row (((List.range n).foldl (nearest_step m row) (RVal.inf, 0)).2)).toReal <
        (m.distance row j).toReal) := by
  intro n
  induction n with
  | zero => intro h; omega
  | succ n ih =>
    intro hpos
    rw [foldl_range_succ]
    by_cases hn0 : n = 0
    · subst hn0
      simp only [List.range_zero, List.foldl_nil, nearest_step]
      rw [distance_real m row 0]
      rw [if_pos (RVal.lt_v_inf _)]
      refine ⟨by omega, (distance_isV m row 0).symm, ?_, ?_⟩
      · intro j hj
        have hj0 : j = 0 := by omega
        subst hj0
        exact le_refl _
      · intro j hj
        omega
    · obtain ⟨ih1, ih2, ih3, ih4⟩ := ih (by omega)
      have hacc : ((List.range n).foldl (nearest_step m row) (RVal.inf, 0)).1 =
          RVal.v ((m.distance row
            (((List.range n).foldl (nearest_step m row) (RVal.inf, 0)).2)).toReal) :=
        ih2.trans (distance_isV m row _)
      simp only [nearest_step]
      rw [distance_real m row n, hacc]
      simp only [RVal.lt_v_v]
      by_cases hlt : (m.distance row n).toReal <
          (m.distance row (((List.range n).foldl (nearest_step m row) (RVal.inf, 0)).2)).toReal
      · rw [if_pos hlt]
        refine ⟨by omega, (distance_isV m row n).symm, ?_, ?_⟩
        · intro j hj
          by_cases hjn : j = n
          · subst hjn
            exact le_refl _
          · exact le_of_lt (lt_of_lt_of_le hlt (ih3 j (by omega)))
        · intro j hj
          exact lt_of_lt_of_le hlt (ih3 j (by omega))
      · rw [if_neg hlt]
        refine ⟨by omega, ih2, ?_, ih4⟩
        intro j hj
        by_cases hjn : j = n
        · subst hjn
          exact le_of_not_lt hlt
        · exact ih3 j (by omega)

/-- C7: the assignment phase's centroid choice is the first argmin of the
distances `1 - pearson(row, centroid)`: every distance is a real number
(pearson never produces NaN), the chosen index is within range, its distance
is smallest among all centroids, and it beats every earlier index strictly
(strict `<` comparison, first-seen minimum wins). -/
theorem get_nearest_centroid_argmin (m : Model) (row : Row)
    (hcc : 0 < m.cluster_count) :
    (∀ j, m.distance row j = RVal.v ((m.distance row j).toReal)) ∧
    m.get_nearest_centroid row < m.cluster_count ∧
    (∀ j < m.cluster_count,
      (m.distance row (m.get_nearest_centroid row)).toReal ≤ (m.distance row j).toReal) ∧
    (∀ j < m.get_nearest_centroid row,
      (m.distance row (m.get_nearest_centroid row)).toReal < (m.distance row j).toReal) := by
  obtain ⟨h1, _, h3, h4⟩ := nearest_range_argmin m row m.cluster_count hcc
  exact ⟨fun j => distance_isV m row j, h1, h3, h4⟩

/-- Witness: get_nearest_centroid_argmin on a one-cluster model. -/
theorem get_nearest_centroid_argmin_witness :
    (∀ j, (Model.distance ⟨1, 1, 1, ⟨[[⟨0, Fq.val 2⟩]]⟩, [none]⟩ [⟨0, Fq.val 1⟩] j) =
      RVal.v ((Model.distance ⟨1, 1, 1, ⟨[[⟨0, Fq.val 2⟩]]⟩, [none]⟩ [⟨0, Fq.val 1⟩] j).toReal)) ∧
    Model.get_nearest_centroid ⟨1, 1, 1, ⟨[[⟨0, Fq.val 2⟩]]⟩, [none]⟩ [⟨0, Fq.val 1⟩] < 1 ∧
    (∀ j < 1,
      (Model.distance ⟨1, 1, 1, ⟨[[⟨0, Fq.val 2⟩]]⟩, [none]⟩ [⟨0, Fq.val 1⟩]
        (Model.get_nearest_centroid ⟨1, 1, 1, ⟨[[⟨0, Fq.val 2⟩]]⟩, [none]⟩ [⟨0, Fq.val 1⟩])).toReal ≤
        (Model.distance ⟨1, 1, 1, ⟨[[⟨0, Fq.val 2⟩]]⟩, [none]⟩ [⟨0, Fq.val 1⟩] j).toReal) ∧
    (∀ j < Model.get_nearest_centroid ⟨1, 1, 1, ⟨[[⟨0, Fq.val 2⟩]]⟩, [none]⟩ [⟨0, Fq.val 1⟩],
      (Model.distance ⟨1, 1, 1, ⟨[[⟨0, Fq.val 2⟩]]⟩, [none]⟩ [⟨0, Fq.val 1⟩]
        (Model.get_nearest_centroid ⟨1, 1, 1, ⟨[[⟨0, Fq.val 2⟩]]⟩, [none]⟩ [⟨0, Fq.val 1⟩])).toReal <
        (Model.distance ⟨1, 1, 1, ⟨[[⟨0, Fq.val 2⟩]]⟩, [none]⟩ [⟨0, Fq.val 1⟩] j).toReal) :=
  get_nearest_centroid_argmin ⟨1, 1, 1, ⟨[[⟨0, Fq.val 2⟩]]⟩, [none]⟩ [⟨0, Fq.val 1⟩]
    Nat.one_pos

/-! Characterisation of the centroid phases: reset, accumulation,
normalisation. -/

theorem flat_index_inj (k c p q colc : ℕ) (hp : p < colc) (hq : q < colc)
    (h : k * colc + q = c * colc + p) : k = c ∧ q = p := by
  have hcolc : 0 < colc := by omega
  have hk : (k * colc + q) / colc = k := by
    rw [Nat.mul_comm k colc, Nat.mul_add_div hcolc, Nat.div_eq_of_lt hq]
    omega
  have hc2 : (c * colc + p) / colc = c := by
    rw [Nat.mul_comm c colc, Nat.mul_add_div hcolc, Nat.div_eq_of_lt hp]
    omega
  have hkc : k = c := by rw [← hk, ← hc2, h]
  constructor
  · exact hkc
  · subst hkc
    omega

theorem map_column_listUpd (f : Entry → Entry) (hf : ∀ x, (f x).column = x.column)
    (i : ℕ) (l : Row) : (listUpd f i l).map (fun e => e.column) =
      l.map (fun e => e.column) := by
  induction l generalizing i with
  | nil => simp
  | cons x xs ih =>
    cases i with
    | zero => simp [hf]
    | succ i => simp [ih]

theorem getD_listUpd_self_nil (f : Row → Row) (hf : f [] = []) (i : ℕ) (l : List Row) :
    (listUpd f i l).getD i [] = f (l.getD i []) := by
  rw [List.getD_eq_getElem?_getD, List.getD_eq_getElem?_getD, getElem?_listUpd_self]
  rcases h : l[i]? with _ | r
  · simp [hf]
  · simp

theorem getD_listUpd_ne {α : Type} (f : α → α) {i j : ℕ} (h : i ≠ j) (l : List α)
    (d : α) : (listUpd f i l).getD j d = l.getD j d := by
  rw [List.getD_eq_getElem?_getD, List.getD_eq_getElem?_getD, getElem?_listUpd_ne _ _ h]

theorem getD_listUpd_self_lt {α : Type} (f : α → α) (i : ℕ) (l : List α) (d : α)
    (h : i < l.length) : (listUpd f i l).getD i d = f (l.getD i d) := by
  rw [List.getD_eq_getElem?_getD, List.getD_eq_getElem?_getD, getElem?_listUpd_self]
  rcases hh : l[i]? with _ | x
  · rw [List.getElem?_eq_none_iff] at hh
    omega
  · simp

theorem accum_entry_obs (colc k c p : ℕ) (hp : p < colc) (e : Entry)
    (he : e.column < colc) (acc : List Row × List ℕ)
    (hrow : p < (acc.1.getD c []).length)
    (hcnt : c * colc + p < acc.2.length) :
    (((accum_entry colc k acc e).1.getD c []).getD p ⟨0, Fq.val 0⟩).value =
      (if k = c ∧ e.column = p
       then ((acc.1.getD c []).getD p ⟨0, Fq.val 0⟩).value + e.value
       else ((acc.1.getD c []).getD p ⟨0, Fq.val 0⟩).value) ∧
    (accum_entry colc k acc e).2.getD (c * colc + p) 0 =
      (if k = c ∧ e.column = p
       then acc.2.getD (c * colc + p) 0 + 1
       else acc.2.getD (c * colc + p) 0) ∧
    (∀ j, ((accum_entry colc k acc e).1.getD j []).map (fun x => x.column) =
      (acc.1.getD j []).map (fun x => x.column)) ∧
    (accum_entry colc k acc e).2.length = acc.2.length := by
  have hinner : ∀ r : Row, (listUpd (fun cell => (⟨cell.column, cell.value + e.value⟩ : Entry))
      e.column r).map (fun x => x.column) = r.map (fun x => x.column) :=
    fun r => map_column_listUpd
      (fun cell => (⟨cell.column, cell.value + e.value⟩ : Entry)) (fun x => rfl) e.column r
  refine ⟨?_, ?_, ?_, ?_⟩
  · show (((listUpd _ k acc.1).getD c []).getD p ⟨0, Fq.val 0⟩).value = _
    by_cases hk : k = c
    · subst hk
      rw [getD_listUpd_self_nil _ (listUpd_nil _ _)]
      by_cases hcol : e.column = p
      · subst hcol
        rw [getD_listUpd_self_lt _ _ _ _ hrow]
        simp
      · rw [getD_listUpd_ne _ hcol]
        simp [hcol]
    · rw [getD_listUpd_ne _ hk]
      simp [hk]
  · show (listUpd (fun x => x + 1) (k * colc + e.column) acc.2).getD (c * colc + p) 0 = _
    by_cases hidx : k * colc + e.column = c * colc + p
    · obtain ⟨hk, hcol⟩ := flat_index_inj k c p e.column colc hp he hidx
      rw [hidx, getD_listUpd_self_lt _ _ _ _ hcnt]
      simp [hk, hcol]
    · rw [getD_listUpd_ne _ hidx]
      have : ¬ (k = c ∧ e.column = p) := by
        rintro ⟨rfl, rfl⟩
        exact hidx rfl
      simp [this]
  · intro j
    show ((listUpd _ k acc.1).getD j []).map (fun x => x.column) = _
    by_cases hk : k = j
    · subst hk
      rw [getD_listUpd_self_nil _ (listUpd_nil _ _)]
      exact hinner _
    · rw [getD_listUpd_ne _ hk]
  · show (listUpd (fun x => x + 1) (k * colc + e.column) acc.2).length = acc.2.length
    exact length_listUpd _ _ _

theorem addAll_cons (x : Fq) (v : Fq) (l : List Fq) :
    addAll x (v :: l) = addAll (x + v) l := rfl

theorem addAll_append (x : Fq) (l1 l2 : List Fq) :
    addAll x (l1 ++ l2) = addAll (addAll x l1) l2 := by
  simp [addAll, List.foldl_append]

theorem accum_entries_obs (colc k c p : ℕ) (hp : p < colc) :
    ∀ (es : List Entry) (acc : List Row × List ℕ),
    (∀ e ∈ es, e.column < colc) →
    p < (acc.1.getD c []).length →
    c * colc + p < acc.2.length →
    (((es.foldl (accum_entry colc k) acc).1.getD c []).getD p ⟨0, Fq.val 0⟩).value =
      (if k = c
       then addAll (((acc.1.getD c []).getD p ⟨0, Fq.val 0⟩).value)
         ((es.filter (fun e => decide (e.column = p))).map (fun e => e.value))
       else ((acc.1.getD c []).getD p ⟨0, Fq.val 0⟩).value) ∧
    (es.foldl (accum_entry colc k) acc).2.getD (c * colc + p) 0 =
      (if k = c
       then acc.2.getD (c * colc + p) 0 +
         ((es.filter (fun e => decide (e.column = p))).length)
       else acc.2.getD (c * colc + p) 0) ∧
    (∀ j, ((es.foldl (accum_entry colc k) acc).1.getD j []).map (fun x => x.column) =
      (acc.1.getD j []).map (fun x => x.column)) ∧
    (es.foldl (accum_entry colc k) acc).2.length = acc.2.length := by
  intro es
  induction es with
  | nil =>
    intro acc hcols hrow hcnt
    refine ⟨?_, ?_, fun j => rfl, rfl⟩ <;>
      by_cases hk : k = c <;> simp [hk, addAll]
  | cons e t ih =>
    intro acc hcols hrow hcnt
    simp only [List.foldl_cons]
    obtain ⟨h1, h2, h3, h4⟩ :=
      accum_entry_obs colc k c p hp e (hcols e (by simp)) acc hrow hcnt
    have hrow2 : p < ((accum_entry colc k acc e).1.getD c []).length := by
      have hlen := congrArg List.length (h3 c)
      simp only [List.length_map] at hlen
      omega
    have hcnt2 : c * colc + p < (accum_entry colc k acc e).2.length := by
      rw [h4]
      exact hcnt
    obtain ⟨g1, g2, g3, g4⟩ := ih (accum_entry colc k acc e)
      (fun x hx => hcols x (by simp [hx])) hrow2 hcnt2
    refine ⟨?_, ?_, fun j => (g3 j).trans (h3 j), g4.trans h4⟩
    · rw [g1, h1]
      by_cases hk : k = c
      · rw [if_pos hk, if_pos hk]
        by_cases hcol : e.column = p
        · rw [if_pos ⟨hk, hcol⟩, List.filter_cons_of_pos (by simp [hcol]), List.map_cons,
            addAll_cons]
        · rw [if_neg (fun hb => hcol hb.2), List.filter_cons_of_neg (by simp [hcol])]
      · rw [if_neg hk, if_neg hk, if_neg (fun hb => hk hb.1)]
    · rw [g2, h2]
      by_cases hk : k = c
      · rw [if_pos hk, if_pos hk]
        by_cases hcol : e.column = p
        · rw [if_pos ⟨hk, hcol⟩, List.filter_cons_of_pos (by simp [hcol]), List.length_cons]
          omega
        · rw [if_neg (fun hb => hcol hb.2), List.filter_cons_of_neg (by simp [hcol])]
      · rw [if_neg hk, if_neg hk, if_neg (fun hb => hk hb.1)]

theorem contribValues_succ (matrix : Csr) (A : List (Option ℕ)) (n c p : ℕ) :
    contribValues matrix A (n + 1) c p =
      contribValues matrix A n c p ++
        (if A.getD n none = some c
         then ((matrix.get_row n).filter (fun e => decide (e.column = p))).map
           (fun e => e.value)
         else []) := by
  unfold contribValues
  rw [List.range_succ, List.filter_append, List.map_append, List.flatten_append]
  congr 1
  by_cases h : A.getD n none = some c
  · rw [if_pos h]
    have hfil : List.filter (fun i => decide (A.getD i none = some c)) [n] = [n] := by
      rw [List.filter_cons, List.filter_nil]
      simp only [decide_eq_true_eq]
      rw [if_pos h]
    rw [hfil, List.map_cons, List.map_nil, List.flatten_cons, List.flatten_nil,
      List.append_nil]
  · rw [if_neg h]
    have hfil : List.filter (fun i => decide (A.getD i none = some c)) [n] = [] := by
      rw [List.filter_cons, List.filter_nil]
      simp only [decide_eq_true_eq]
      rw [if_neg h]
    rw [hfil, List.map_nil, List.flatten_nil]

theorem accum_range_obs (colc c p : ℕ) (matrix : Csr) (A : List (Option ℕ))
    (hp : p < colc) :
    ∀ (n : ℕ) (acc : List Row × List ℕ),
    (∀ i < n, ∀ e ∈ matrix.get_row i, e.column < colc) →
    p < (acc.1.getD c []).length →
    c * colc + p < acc.2.length →
    ((((List.range n).foldl (accum_row colc matrix A) acc).1.getD c []).getD p
        ⟨0, Fq.val 0⟩).value =
      addAll (((acc.1.getD c []).getD p ⟨0, Fq.val 0⟩).value)
        (contribValues matrix A n c p) ∧
    ((List.range n).foldl (accum_row colc matrix A) acc).2.getD (c * colc + p) 0 =
      acc.2.getD (c * colc + p) 0 + (contribValues matrix A n c p).length ∧
    (∀ j, (((List.range n).foldl (accum_row colc matrix A) acc).1.getD j []).map
        (fun x => x.column) = (acc.1.getD j []).map (fun x => x.column)) ∧
    ((List.range n).foldl (accum_row colc matrix A) acc).2.length = acc.2.length := by
  intro n
  induction n with
  | zero =>
    intro acc hcols hrow hcnt
    exact ⟨by simp [contribValues, addAll], by simp [contribValues], fun j => rfl, rfl⟩
  | succ n ih =>
    intro acc hcols hrow hcnt
    rw [foldl_range_succ]
    obtain ⟨g1, g2, g3, g4⟩ := ih acc (fun i hi => hcols i (by omega)) hrow hcnt
    have hrow2 : p < (((List.range n).foldl (accum_row colc matrix A) acc).1.getD c []).length := by
      have hlen := congrArg List.length (g3 c)
      simp only [List.length_map] at hlen
      omega
    have hcnt2 : c * colc + p <
        ((List.range n).foldl (accum_row colc matrix A) acc).2.length := by
      rw [g4]
      exact hcnt
    rw [contribValues_succ]
    rcases hA : A.getD n none with _ | k
    · have hstep : accum_row colc matrix A
          ((List.range n).foldl (accum_row colc matrix A) acc) n =
          (List.range n).foldl (accum_row colc matrix A) acc := by
        simp only [accum_row]
        rw [hA]
      rw [hstep]
      refine ⟨?_, ?_, g3, g4⟩
      · rw [if_neg (by simp), List.append_nil, g1]
      · rw [if_neg (by simp), List.append_nil, g2]
    · have hstep : accum_row colc matrix A
          ((List.range n).foldl (accum_row colc matrix A) acc) n =
          (matrix.get_row n).foldl (accum_entry colc k)
            ((List.range n).foldl (accum_row colc matrix A) acc) := by
        simp only [accum_row]
        rw [hA]
      rw [hstep]
      obtain ⟨h1, h2, h3, h4⟩ := accum_entries_obs colc k c p hp (matrix.get_row n)
        ((List.range n).foldl (accum_row colc matrix A) acc)
        (fun e he => hcols n (by omega) e he) hrow2 hcnt2
      refine ⟨?_, ?_, fun j => (h3 j).trans (g3 j), h4.trans g4⟩
      · rw [h1]
        by_cases hk : k = c
        · rw [if_pos hk, g1, if_pos (by rw [hk]), addAll_append]
        · rw [if_neg hk, g1, if_neg (by simp [hk]), List.append_nil]
      · rw [h2]
        by_cases hk : k = c
        · rw [if_pos hk, g2, if_pos (by rw [hk]), List.length_append, List.length_map]
          omega
        · rw [if_neg hk, g2, if_neg (by simp [hk]), List.append_nil]

theorem length_foldl_upd {α : Type} (h : ℕ → α → α) (n : ℕ) (l : List α) :
    ((List.range n).foldl (fun acc c => listUpd (h c) c acc) l).length = l.length := by
  induction n with
  | zero => rfl
  | succ n ih => rw [foldl_range_succ, length_listUpd, ih]

theorem accum_entries_rows_length (colc k : ℕ) (es : List Entry) :
    ∀ acc : List Row × List ℕ,
    (es.foldl (accum_entry colc k) acc).1.length = acc.1.length := by
  induction es with
  | nil => intro acc; rfl
  | cons e t ih =>
    intro acc
    rw [List.foldl_cons, ih]
    exact length_listUpd _ _ _

theorem accum_range_rows_length (colc : ℕ) (matrix : Csr) (A : List (Option ℕ)) :
    ∀ (n : ℕ) (acc : List Row × List ℕ),
    ((List.range n).foldl (accum_row colc matrix A) acc).1.length = acc.1.length := by
  intro n
  induction n with
  | zero => intro acc; rfl
  | succ n ih =>
    intro acc
    rw [foldl_range_succ]
    rcases hA : A.getD n none with _ | k
    · have hstep : accum_row colc matrix A
          ((List.range n).foldl (accum_row colc matrix A) acc) n =
          (List.range n).foldl (accum_row colc matrix A) acc := by
        simp only [accum_row]
        rw [hA]
      rw [hstep, ih]
    · have hstep : accum_row colc matrix A
          ((List.range n).foldl (accum_row colc matrix A) acc) n =
          (matrix.get_row n).foldl (accum_entry colc k)
            ((List.range n).foldl (accum_row colc matrix A) acc) := by
        simp only [accum_row]
        rw [hA]
      rw [hstep, accum_entries_rows_length, ih]

theorem getD_map_entry (f : Entry → Entry) (r : Row) (p : ℕ) (hp : p < r.length) :
    (r.map f).getD p ⟨0, Fq.val 0⟩ = f (r.getD p ⟨0, Fq.val 0⟩) := by
  rw [List.getD_eq_getElem?_getD, List.getD_eq_getElem?_getD, List.getElem?_map]
  rcases hh : r[p]? with _ | x
  · rw [List.getElem?_eq_none_iff] at hh
    omega
  · simp

theorem getD_column_of_range (r : Row) (colc p : ℕ)
    (hcolr : r.map (fun e => e.column) = List.range colc) (hp : p < colc) :
    p < r.length ∧ (r.getD p ⟨0, Fq.val 0⟩).column = p := by
  have hlen : r.length = colc := by
    have h := congrArg List.length hcolr
    simpa using h
  have hpr : p < r.length := by omega
  refine ⟨hpr, ?_⟩
  have h1 : (r.map (fun e => e.column))[p]? = some p := by
    rw [hcolr, List.getElem?_range hp]
  rw [List.getElem?_map] at h1
  rcases hh : r[p]? with _ | x
  · rw [hh] at h1
    simp at h1
  · rw [hh] at h1
    have hx : x.column = p := by simpa using h1
    rw [List.getD_eq_getElem?_getD, hh]
    simpa using hx

theorem zeroRow_columns (r : Row) :
    (zeroRow r).map (fun e => e.column) = r.map (fun e => e.column) := by
  simp [zeroRow]

theorem zeroRow_getD_value (r : Row) (p : ℕ) (hp : p < r.length) :
    ((zeroRow r).getD p ⟨0, Fq.val 0⟩).value = Fq.val 0 := by
  rw [zeroRow, getD_map_entry _ _ _ hp]

theorem reset_phase_rows_length (cc : ℕ) (cents : Csr) :
    (reset_phase cc cents).rows.length = cents.rows.length :=
  length_foldl_upd (fun _ => zeroRow) cc cents.rows

theorem reset_phase_getD (cc : ℕ) (cents : Csr) (c : ℕ) (hc : c < cc)
    (hclen : c < cents.rows.length) :
    (reset_phase cc cents).rows.getD c [] = zeroRow (cents.rows.getD c []) := by
  show ((List.range cc).foldl (fun rows k => listUpd zeroRow k rows) cents.rows).getD c [] = _
  rw [List.getD_eq_getElem?_getD,
    foldl_upd_range (fun _ => zeroRow) cc cents.rows c, if_pos hc]
  rcases hh : cents.rows[c]? with _ | r
  · rw [List.getElem?_eq_none_iff] at hh
    omega
  · rw [List.getD_eq_getElem?_getD, hh]
    simp

theorem normalize_phase_getD (colc cc : ℕ) (counts : List ℕ) (rows : List Row) (c : ℕ)
    (hc : c < cc) (hclen : c < rows.length) :
    (normalize_phase colc cc counts rows).getD c [] =
      normRow colc counts c (rows.getD c []) := by
  show ((List.range cc).foldl (fun rs k => listUpd (normRow colc counts k) k rs) rows).getD c [] = _
  rw [List.getD_eq_getElem?_getD,
    foldl_upd_range (fun k => normRow colc counts k) cc rows c, if_pos hc]
  rcases hh : rows[c]? with _ | r
  · rw [List.getElem?_eq_none_iff] at hh
    omega
  · rw [List.getD_eq_getElem?_getD, hh]
    simp

/-- The cell of `make_step`'s centroid store at cluster c, column p, equals
the left-to-right sum of the contributing values (rows assigned to c that
carry column p, in row order) divided by the contribution count, both
mirrored by the flat counter vector. -/
theorem make_step_cell_eq (m : Model) (matrix : Csr) (c p : ℕ)
    (hlen : m.centroids.rows.length = m.cluster_count)
    (hdense : ∀ k < m.cluster_count,
      (m.centroids.rows.getD k []).map (fun e => e.column) = List.range m.column_count)
    (hcols : ∀ i < m.row_count, ∀ e ∈ matrix.get_row i, e.column < m.column_count)
    (hc : c < m.cluster_count) (hp : p < m.column_count) :
    cellValue (m.make_step matrix).1.centroids c p =
      addAll (Fq.val 0)
          (contribValues matrix (m.make_step matrix).1.row_clusters m.row_count c p) /
        Fq.val (((contribValues matrix (m.make_step matrix).1.row_clusters
          m.row_count c p).length : ℕ) : ℚ) := by
  have hc1 : (m.assign_phase matrix).1.row_count = m.row_count :=
    (assign_range_const matrix (m, 0) m.row_count).1
  have hc2 : (m.assign_phase matrix).1.column_count = m.column_count :=
    (assign_range_const matrix (m, 0) m.row_count).2.1
  have hc3 : (m.assign_phase matrix).1.cluster_count = m.cluster_count :=
    (assign_range_const matrix (m, 0) m.row_count).2.2.1
  have hc4 : (m.assign_phase matrix).1.centroids = m.centroids :=
    (assign_range_const matrix (m, 0) m.row_count).2.2.2.1
  have hms : (m.make_step matrix).1.centroids =
      recompute m.row_count m.column_count m.cluster_count matrix
        (m.assign_phase matrix).1.row_clusters m.centroids := by
    show recompute (m.assign_phase matrix).1.row_count (m.assign_phase matrix).1.column_count
      (m.assign_phase matrix).1.cluster_count matrix
      (m.assign_phase matrix).1.row_clusters (m.assign_phase matrix).1.centroids = _
    rw [hc1, hc2, hc3, hc4]
  have hmsA : (m.make_step matrix).1.row_clusters = (m.assign_phase matrix).1.row_clusters := rfl
  rw [hms, hmsA]
  have hrec : recompute m.row_count m.column_count m.cluster_count matrix
      (m.assign_phase matrix).1.row_clusters m.centroids =
      ⟨normalize_phase m.column_count m.cluster_count
        (accumulate_phase m.row_count m.column_count m.cluster_count matrix
          (m.assign_phase matrix).1.row_clusters
          (reset_phase m.cluster_count m.centroids)).2
        (accumulate_phase m.row_count m.column_count m.cluster_count matrix
          (m.assign_phase matrix).1.row_clusters
          (reset_phase m.cluster_count m.centroids)).1⟩ := rfl
  rw [hrec]
  have hreset_len : (reset_phase m.cluster_count m.centroids).rows.length = m.cluster_count := by
    rw [reset_phase_rows_length, hlen]
  have hrow0 : (reset_phase m.cluster_count m.centroids).rows.getD c [] =
      zeroRow (m.centroids.rows.getD c []) :=
    reset_phase_getD _ _ c hc (by omega)
  have hcols0 : ((reset_phase m.cluster_count m.centroids).rows.getD c []).map
      (fun e => e.column) = List.range m.column_count := by
    rw [hrow0, zeroRow_columns, hdense c hc]
  have hlen0 : ((reset_phase m.cluster_count m.centroids).rows.getD c []).length =
      m.column_count := by
    have h := congrArg List.length hcols0
    simpa using h
  have horiglen : (m.centroids.rows.getD c []).length = m.column_count := by
    have h := congrArg List.length (hdense c hc)
    simpa using h
  have hval0 : (((reset_phase m.cluster_count m.centroids).rows.getD c []).getD p
      ⟨0, Fq.val 0⟩).value = Fq.val 0 := by
    rw [hrow0]
    exact zeroRow_getD_value _ _ (by omega)
  have hidx : c * m.column_count + p < m.cluster_count * m.column_count := by
    calc c * m.column_count + p < c * m.column_count + m.column_count := by omega
    _ = (c + 1) * m.column_count := by ring
    _ ≤ m.cluster_count * m.column_count := Nat.mul_le_mul_right _ (by omega)
  obtain ⟨o1, o2, o3, o4⟩ := accum_range_obs m.column_count c p matrix
    (m.assign_phase matrix).1.row_clusters hp m.row_count
    ((reset_phase m.cluster_count m.centroids).rows,
      List.replicate (m.cluster_count * m.column_count) 0)
    hcols (by rw [hlen0] at *; exact hp) (by rw [List.length_replicate]; exact hidx)
  have hACC : accumulate_phase m.row_count m.column_count m.cluster_count matrix
      (m.assign_phase matrix).1.row_clusters (reset_phase m.cluster_count m.centroids) =
      (List.range m.row_count).foldl
        (accum_row m.column_count matrix (m.assign_phase matrix).1.row_clusters)
        ((reset_phase m.cluster_count m.centroids).rows,
          List.replicate (m.cluster_count * m.column_count) 0) := rfl
  have hcnt : (accumulate_phase m.row_count m.column_count m.cluster_count matrix
      (m.assign_phase matrix).1.row_clusters
      (reset_phase m.cluster_count m.centroids)).2.getD (c * m.column_count + p) 0 =
      (contribValues matrix (m.assign_phase matrix).1.row_clusters m.row_count c p).length := by
    rw [hACC, o2]
    rw [List.getD_eq_getElem?_getD, List.getElem?_replicate, if_pos hidx]
    simp
  have hcell : (((accumulate_phase m.row_count m.column_count m.cluster_count matrix
      (m.assign_phase matrix).1.row_clusters
      (reset_phase m.cluster_count m.centroids)).1.getD c []).getD p ⟨0, Fq.val 0⟩).value =
      addAll (Fq.val 0)
        (contribValues matrix (m.assign_phase matrix).1.row_clusters m.row_count c p) := by
    rw [hACC, o1, hval0]
  have hcolsACC : ((accumulate_phase m.row_count m.column_count m.cluster_count matrix
      (m.assign_phase matrix).1.row_clusters
      (reset_phase m.cluster_count m.centroids)).1.getD c []).map (fun e => e.column) =
      List.range m.column_count := by
    rw [hACC, o3 c]
    exact hcols0
  obtain ⟨hplt, hpcol⟩ := getD_column_of_range _ m.column_count p hcolsACC hp
  have hACClen : (accumulate_phase m.row_count m.column_count m.cluster_count matrix
      (m.assign_phase matrix).1.row_clusters
      (reset_phase m.cluster_count m.centroids)).1.length = m.cluster_count := by
    rw [hACC, accum_range_rows_length]
    exact hreset_len
  have hcv : ∀ rows : List Row, cellValue ⟨rows⟩ c p =
      ((rows.getD c []).getD p ⟨0, Fq.val 0⟩).value := fun rows => rfl
  rw [hcv]
  rw [normalize_phase_getD m.column_count m.cluster_count
    (accumulate_phase m.row_count m.column_count m.cluster_count matrix
      (m.assign_phase matrix).1.row_clusters (reset_phase m.cluster_count m.centroids)).2
    (accumulate_phase m.row_count m.column_count m.cluster_count matrix
      (m.assign_phase matrix).1.row_clusters (reset_phase m.cluster_count m.centroids)).1
    c hc (by omega)]
  simp only [normRow]
  rw [getD_map_entry _ _ _ hplt]
  simp only [hpcol, hcell, hcnt]

theorem addAll_vals (qs : List ℚ) : ∀ x : ℚ,
    addAll (Fq.val x) (qs.map Fq.val) = Fq.val (x + qs.sum) := by
  induction qs with
  | nil => intro x; simp [addAll]
  | cons q t ih =>
    intro x
    rw [List.map_cons, addAll_cons, Fq.val_add_val, ih, List.sum_cons]
    rw [add_assoc]

/-- C2: after `make_step`, for every cluster and every column of the dense
centroid shape that received at least one contribution, the centroid cell is
the left-to-right sum of the values of that column over the rows currently
assigned to the cluster, divided by the contribution count; with rational
contributions this is exactly the arithmetic mean. -/
theorem make_step_centroid_mean (m : Model) (matrix : Csr) (c p : ℕ)
    (hlen : m.centroids.rows.length = m.cluster_count)
    (hdense : ∀ k < m.cluster_count,
      (m.centroids.rows.getD k []).map (fun e => e.column) = List.range m.column_count)
    (hcols : ∀ i < m.row_count, ∀ e ∈ matrix.get_row i, e.column < m.column_count)
    (hc : c < m.cluster_count) (hp : p < m.column_count)
    (hcount : 0 < (contribValues matrix (m.make_step matrix).1.row_clusters
      m.row_count c p).length) :
    cellValue (m.make_step matrix).1.centroids c p =
      addAll (Fq.val 0)
          (contribValues matrix (m.make_step matrix).1.row_clusters m.row_count c p) /
        Fq.val (((contribValues matrix (m.make_step matrix).1.row_clusters
          m.row_count c p).length : ℕ) : ℚ) ∧
    (∀ qs : List ℚ,
      contribValues matrix (m.make_step matrix).1.row_clusters m.row_count c p =
        qs.map Fq.val →
      cellValue (m.make_step matrix).1.centroids c p =
        Fq.val (qs.sum / ((qs.length : ℕ) : ℚ))) := by
  have h := make_step_cell_eq m matrix c p hlen hdense hcols hc hp
  refine ⟨h, ?_⟩
  intro qs hqs
  rw [h, hqs, List.length_map, addAll_vals, zero_add]
  have hq0 : 0 < qs.length := by
    rw [hqs, List.length_map] at hcount
    exact hcount
  have hne : ((qs.length : ℕ) : ℚ) ≠ 0 := Nat.cast_ne_zero.mpr (by omega)
  rw [Fq.val_div_val _ _ hne]

/-- Witness: make_step_centroid_mean on a model whose single data row (one
entry, hence skipped by assignment but already assigned to cluster 0)
contributes the value 4 to column 0: the centroid cell becomes 4/1. -/
theorem make_step_centroid_mean_witness :
    cellValue (Model.make_step ⟨1, 1, 1, ⟨[[⟨0, Fq.val 7⟩]]⟩, [some 0]⟩
      ⟨[[⟨0, Fq.val 4⟩]]⟩).1.centroids 0 0 = Fq.val 4 := by
  have hA : (Model.make_step ⟨1, 1, 1, ⟨[[⟨0, Fq.val 7⟩]]⟩, [some 0]⟩
      ⟨[[⟨0, Fq.val 4⟩]]⟩).1.row_clusters = [some 0] := by
    show ((List.range 1).foldl (assign_step ⟨[[⟨0, Fq.val 4⟩]]⟩)
      (⟨1, 1, 1, ⟨[[⟨0, Fq.val 7⟩]]⟩, [some 0]⟩, 0)).1.row_clusters = [some 0]
    norm_num [assign_step, Csr.get_row, List.range_succ]
  have h := (make_step_centroid_mean ⟨1, 1, 1, ⟨[[⟨0, Fq.val 7⟩]]⟩, [some 0]⟩
    ⟨[[⟨0, Fq.val 4⟩]]⟩ 0 0 rfl
    (by intro k hk
        have hk0 : k = 0 := Nat.lt_one_iff.mp hk
        subst hk0
        rfl)
    (by intro i hi e he
        have hi0 : i = 0 := Nat.lt_one_iff.mp hi
        subst hi0
        simp only [Csr.get_row, List.getD] at he
        simp at he
        rw [he]
        show 0 < 1
        omega)
    Nat.one_pos Nat.one_pos
    (by rw [hA]
        norm_num [contribValues, Csr.get_row, List.range_succ])).2 [4]
    (by rw [hA]
        norm_num [contribValues, Csr.get_row, List.range_succ])
  rw [h]
  norm_num

/-! NaN in a shared column: the radicand is poisoned, the guard fails, and
pearson returns 0.0 - so a NaN-poisoned centroid keeps a finite distance. -/

theorem statsFold_s2a_nan (ps : List (Entry × Entry)) : ∀ s : Stats,
    s.sum_squared_a = Fq.nan → (statsFold ps s).sum_squared_a = Fq.nan := by
  induction ps with
  | nil => intro s h; exact h
  | cons p t ih =>
    intro s h
    rw [statsFold_cons]
    exact ih _ (by simp [accumStats, h])

theorem pearsonLoop_s2a_nan (a b : List Entry) (s : Stats)
    (h : s.sum_squared_a = Fq.nan) :
    (pearsonLoop a b s).sum_squared_a = Fq.nan := by
  obtain ⟨ps, hps⟩ := pearsonLoop_statsFold a b s
  rw [hps]
  exact statsFold_s2a_nan ps s h

theorem pearsonLoop_nan_a : ∀ (a b : List Entry) (s : Stats),
    a.Pairwise (fun x y => x.column < y.column) →
    b.Pairwise (fun x y => x.column < y.column) →
    (∃ ea ∈ a, ∃ eb ∈ b, ea.column = eb.column ∧ ea.value = Fq.nan) →
    (pearsonLoop a b s).sum_squared_a = Fq.nan := by
  intro a
  induction a with
  | nil =>
    intro b s _ _ h
    obtain ⟨ea, hea, _⟩ := h
    simp at hea
  | cons ea1 resta iha =>
    intro b
    induction b with
    | nil =>
      intro s _ _ h
      obtain ⟨ea, _, eb, heb, _⟩ := h
      simp at heb
    | cons eb1 restb ihb =>
      intro s ha hb h
      obtain ⟨ea, hea, eb, heb, hcol, hnan⟩ := h
      show (pearsonGo (pearsonLoop resta) ea1 (eb1 :: restb) s).sum_squared_a = Fq.nan
      rcases Nat.lt_trichotomy ea1.column eb1.column with hlt | heq | hgt
      · simp only [pearsonGo]
        rw [if_pos hlt]
        have hea2 : ea ∈ resta := by
          rcases List.mem_cons.mp hea with rfl | h2
          · exfalso
            rcases List.mem_cons.mp heb with rfl | h3
            · omega
            · have := (List.pairwise_cons.mp hb).1 eb h3
              omega
          · exact h2
        exact iha (eb1 :: restb) s (List.Pairwise.of_cons ha) hb
          ⟨ea, hea2, eb, heb, hcol, hnan⟩
      · simp only [pearsonGo]
        rw [if_neg (by omega), if_neg (by omega)]
        by_cases hea1 : ea = ea1
        · subst hea1
          exact pearsonLoop_s2a_nan resta restb _ (by simp [accumStats, hnan])
        · have hea2 : ea ∈ resta := by
            rcases List.mem_cons.mp hea with rfl | h2
            · exact absurd rfl hea1
            · exact h2
          have heacol : ea1.column < ea.column := (List.pairwise_cons.mp ha).1 ea hea2
          have heb2 : eb ∈ restb := by
            rcases List.mem_cons.mp heb with rfl | h3
            · exfalso
              omega
            · exact h3
          exact iha restb (accumStats s ea1 eb1) (List.Pairwise.of_cons ha)
            (List.Pairwise.of_cons hb) ⟨ea, hea2, eb, heb2, hcol, hnan⟩
      · simp only [pearsonGo]
        rw [if_neg (by omega), if_pos hgt]
        have heb2 : eb ∈ restb := by
          rcases List.mem_cons.mp heb with rfl | h3
          · exfalso
            rcases List.mem_cons.mp hea with rfl | h2
            · omega
            · have := (List.pairwise_cons.mp ha).1 ea h2
              omega
          · exact h3
        exact ihb s ha (List.Pairwise.of_cons hb) ⟨ea, hea, eb, heb2, hcol, hnan⟩

theorem pearsonLoop_nan_b (a b : List Entry) (s : Stats)
    (ha : a.Pairwise (fun x y => x.column < y.column))
    (hb : b.Pairwise (fun x y => x.column < y.column))
    (h : ∃ ea ∈ a, ∃ eb ∈ b, ea.column = eb.column ∧ eb.value = Fq.nan) :
    (pearsonLoop a b s).sum_squared_b = Fq.nan := by
  obtain ⟨ea, hea, eb, heb, hcol, hnan⟩ := h
  have h2 := pearsonLoop_nan_a b a (swapStats s) hb ha
    ⟨eb, heb, ea, hea, hcol.symm, hnan⟩
  have hswap := pearsonLoop_swap a b s
  calc (pearsonLoop a b s).sum_squared_b
      = (swapStats (pearsonLoop a b s)).sum_squared_a := rfl
    _ = (pearsonLoop b a (swapStats s)).sum_squared_a := by rw [hswap]
    _ = Fq.nan := h2

theorem pearson_nan_shared (a b : Row)
    (ha : a.Pairwise (fun x y => x.column < y.column))
    (hb : b.Pairwise (fun x y => x.column < y.column))
    (h : ∃ ea ∈ a, ∃ eb ∈ b, ea.column = eb.column ∧
      (ea.value = Fq.nan ∨ eb.value = Fq.nan)) :
    pearson a b = RVal.v 0 := by
  by_cases hn : (pearsonLoop a b initStats).n = 0
  · simp only [pearson]
    rw [if_pos hn]
  · simp only [pearson]
    rw [if_neg hn]
    obtain ⟨ea, hea, eb, heb, hcol, hv⟩ := h
    have hrad : ((pearsonLoop a b initStats).sum_squared_a -
        (pearsonLoop a b initStats).sum_a * (pearsonLoop a b initStats).sum_a /
          Fq.val (((pearsonLoop a b initStats).n : ℕ) : ℚ)) *
        ((pearsonLoop a b initStats).sum_squared_b -
        (pearsonLoop a b initStats).sum_b * (pearsonLoop a b initStats).sum_b /
          Fq.val (((pearsonLoop a b initStats).n : ℕ) : ℚ)) = Fq.nan := by
      rcases hv with hva | hvb
      · have h2 := pearsonLoop_nan_a a b initStats ha hb ⟨ea, hea, eb, heb, hcol, hva⟩
        rw [h2, Fq.nan_sub, Fq.nan_mul]
      · have h2 := pearsonLoop_nan_b a b initStats ha hb ⟨ea, hea, eb, heb, hcol, hvb⟩
        rw [h2, Fq.nan_sub, Fq.mul_nan]
    rw [hrad]
    rw [if_neg (by simp [sqrtGtMillionth])]

theorem make_step_zero_contrib_nan (m : Model) (matrix : Csr) (c p : ℕ)
    (hlen : m.centroids.rows.length = m.cluster_count)
    (hdense : ∀ k < m.cluster_count,
      (m.centroids.rows.getD k []).map (fun e => e.column) = List.range m.column_count)
    (hcols : ∀ i < m.row_count, ∀ e ∈ matrix.get_row i, e.column < m.column_count)
    (hc : c < m.cluster_count) (hp : p < m.column_count)
    (hzero : contribValues matrix (m.make_step matrix).1.row_clusters m.row_count c p = []) :
    cellValue (m.make_step matrix).1.centroids c p = Fq.nan := by
  rw [make_step_cell_eq m matrix c p hlen hdense hcols hc hp, hzero]
  show Fq.val 0 / Fq.val (((List.length ([] : List Fq) : ℕ) : ℚ)) = Fq.nan
  rw [List.length_nil, Nat.cast_zero]
  exact Fq.zero_div_zeroF

/-- C8 counterexample: a single centroid whose cell at column 3 is NaN (as
left by a zero-contribution normalisation) is selected again by the very
next assignment phase: its distance to the data row is the real number 1.0
(pearson pairs only the shared columns 0..2), not NaN, so the strict-<
comparison accepts it and the row stays assigned to cluster 0. -/
theorem nan_centroid_selected_again :
    ((Csr.get_row ⟨[[⟨0, Fq.val 1⟩, ⟨1, Fq.val 2⟩, ⟨2, Fq.val 5⟩, ⟨3, Fq.nan⟩]]⟩ 0).getD 3
      ⟨0, Fq.val 0⟩).value = Fq.nan ∧
    (Model.make_step ⟨1, 4, 1,
      ⟨[[⟨0, Fq.val 1⟩, ⟨1, Fq.val 2⟩, ⟨2, Fq.val 5⟩, ⟨3, Fq.nan⟩]]⟩, [some 0]⟩
      ⟨[[⟨0, Fq.val 1⟩, ⟨1, Fq.val 2⟩, ⟨2, Fq.val 5⟩]]⟩).1.row_clusters = [some 0] ∧
    (Model.make_step ⟨1, 4, 1,
      ⟨[[⟨0, Fq.val 1⟩, ⟨1, Fq.val 2⟩, ⟨2, Fq.val 5⟩, ⟨3, Fq.nan⟩]]⟩, [some 0]⟩
      ⟨[[⟨0, Fq.val 1⟩, ⟨1, Fq.val 2⟩, ⟨2, Fq.val 5⟩]]⟩).2 = 0 := by
  refine ⟨rfl, ?_, ?_⟩
  · show ((List.range 1).foldl (assign_step ⟨[[⟨0, Fq.val 1⟩, ⟨1, Fq.val 2⟩, ⟨2, Fq.val 5⟩]]⟩)
      (⟨1, 4, 1, ⟨[[⟨0, Fq.val 1⟩, ⟨1, Fq.val 2⟩, ⟨2, Fq.val 5⟩, ⟨3, Fq.nan⟩]]⟩,
        [some 0]⟩, 0)).1.row_clusters = [some 0]
    norm_num [assign_step, Model.get_nearest_centroid, nearest_step, pearson,
      pearsonLoop, pearsonGo, accumStats, initStats, sqrtGtMillionth, Csr.get_row,
      List.range_succ]
    rw [Fq.val_div_val 64 3 (by norm_num)]
    norm_num [sqrtQuot, decide_eq_true_eq]
  · show ((List.range 1).foldl (assign_step ⟨[[⟨0, Fq.val 1⟩, ⟨1, Fq.val 2⟩, ⟨2, Fq.val 5⟩]]⟩)
      (⟨1, 4, 1, ⟨[[⟨0, Fq.val 1⟩, ⟨1, Fq.val 2⟩, ⟨2, Fq.val 5⟩, ⟨3, Fq.nan⟩]]⟩,
        [some 0]⟩, 0)).2 = 0
    norm_num [assign_step, Model.get_nearest_centroid, nearest_step, pearson,
      pearsonLoop, pearsonGo, accumStats, initStats, sqrtGtMillionth, Csr.get_row,
      List.range_succ]
    rw [Fq.val_div_val 64 3 (by norm_num)]
    norm_num [sqrtQuot, decide_eq_true_eq]

/-- C8 (amended): a (cluster, column) cell that received zero contributions
does become NaN (0.0/0); but a centroid with a NaN cell is not thereafter
unselectable: whenever a data row shares a column holding NaN (on either
side), pearson returns exactly 0.0 - the NaN radicand fails the `> 1e-6`
denominator guard - so the distance is the real number 1.0 and the centroid
competes normally in the strict-< scan (and can win, as the counterexample
shows). -/
theorem nan_centroid_behavior :
    (∀ (m : Model) (matrix : Csr) (c p : ℕ),
      m.centroids.rows.length = m.cluster_count →
      (∀ k < m.cluster_count, (m.centroids.rows.getD k []).map (fun e => e.column) =
        List.range m.column_count) →
      (∀ i < m.row_count, ∀ e ∈ matrix.get_row i, e.column < m.column_count) →
      c < m.cluster_count → p < m.column_count →
      contribValues matrix (m.make_step matrix).1.row_clusters m.row_count c p = [] →
      cellValue (m.make_step matrix).1.centroids c p = Fq.nan) ∧
    (∀ a b : Row, a.Pairwise (fun x y => x.column < y.column) →
      b.Pairwise (fun x y => x.column < y.column) →
      (∃ ea ∈ a, ∃ eb ∈ b, ea.column = eb.column ∧
        (ea.value = Fq.nan ∨ eb.value = Fq.nan)) →
      pearson a b = RVal.v 0) :=
  ⟨fun m matrix c p h1 h2 h3 h4 h5 h6 =>
    make_step_zero_contrib_nan m matrix c p h1 h2 h3 h4 h5 h6,
   fun a b ha hb h => pearson_nan_shared a b ha hb h⟩

/-- Witness: nan_centroid_behavior's zero-contribution part on a one-cluster
model whose single (skipped, unassigned) row contributes nothing, so the
cell 0.0/0 becomes NaN; and its guard part on two concrete rows sharing a
NaN column. -/
theorem nan_centroid_behavior_witness :
    cellValue (Model.make_step ⟨1, 1, 1, ⟨[[⟨0, Fq.val 7⟩]]⟩, [none]⟩
      ⟨[[⟨0, Fq.val 4⟩]]⟩).1.centroids 0 0 = Fq.nan ∧
    pearson [⟨0, Fq.nan⟩, ⟨1, Fq.val 2⟩] [⟨0, Fq.val 3⟩] = RVal.v 0 := by
  constructor
  · have hA : (Model.make_step ⟨1, 1, 1, ⟨[[⟨0, Fq.val 7⟩]]⟩, [none]⟩
        ⟨[[⟨0, Fq.val 4⟩]]⟩).1.row_clusters = [none] := by
      show ((List.range 1).foldl (assign_step ⟨[[⟨0, Fq.val 4⟩]]⟩)
        (⟨1, 1, 1, ⟨[[⟨0, Fq.val 7⟩]]⟩, [none]⟩, 0)).1.row_clusters = [none]
      norm_num [assign_step, Csr.get_row, List.range_succ]
    refine nan_centroid_behavior.1 ⟨1, 1, 1, ⟨[[⟨0, Fq.val 7⟩]]⟩, [none]⟩
      ⟨[[⟨0, Fq.val 4⟩]]⟩ 0 0 rfl
      (by intro k hk
          have hk0 : k = 0 := Nat.lt_one_iff.mp hk
          subst hk0
          rfl)
      (by intro i hi e he
          have hi0 : i = 0 := Nat.lt_one_iff.mp hi
          subst hi0
          simp only [Csr.get_row, List.getD] at he
          simp at he
          rw [he]
          show 0 < 1
          omega)
      Nat.one_pos Nat.one_pos ?_
    rw [hA]
    norm_num [contribValues, List.range_succ]
    intro h
    exact absurd h (by simp)
  · refine nan_centroid_behavior.2 [⟨0, Fq.nan⟩, ⟨1, Fq.val 2⟩] [⟨0, Fq.val 3⟩]
      (by simp) (by simp) ⟨⟨0, Fq.nan⟩, by simp, ⟨0, Fq.val 3⟩, by simp, rfl, Or.inl rfl⟩

/-! The centroid phases depend on the previous store only through its
column structure: reset zeroes every value, and accumulation and
normalisation preserve every row's column list. -/

theorem listUpd_map {α β : Type} (f : α → α) (g : α → β) (hf : ∀ x, g (f x) = g x) :
    ∀ (i : ℕ) (l : List α), (listUpd f i l).map g = l.map g := by
  intro i l
  induction l generalizing i with
  | nil => simp
  | cons x xs ih =>
    cases i with
    | zero => simp [hf]
    | succ i => simp [ih]

theorem shape_foldl_upd (h : ℕ → Row → Row)
    (hpre : ∀ (k : ℕ) (r : Row), (h k r).map (fun e => e.column) = r.map (fun e => e.column)) :
    ∀ (n : ℕ) (l : List Row),
    ((List.range n).foldl (fun acc c => listUpd (h c) c acc) l).map
        (fun r => r.map (fun e => e.column)) =
      l.map (fun r => r.map (fun e => e.column)) := by
  intro n
  induction n with
  | zero => intro l; rfl
  | succ n ih =>
    intro l
    rw [foldl_range_succ,
      listUpd_map (h n) (fun r => r.map (fun e => e.column)) (hpre n), ih]

theorem normRow_columns (colc : ℕ) (counts : List ℕ) (c : ℕ) (r : Row) :
    (normRow colc counts c r).map (fun e => e.column) = r.map (fun e => e.column) := by
  simp [normRow]

theorem accum_entry_shape (colc k : ℕ) (acc : List Row × List ℕ) (e : Entry) :
    (accum_entry colc k acc e).1.map (fun r => r.map (fun x => x.column)) =
      acc.1.map (fun r => r.map (fun x => x.column)) :=
  listUpd_map
    (fun row => listUpd (fun cell => ⟨cell.column, cell.value + e.value⟩) e.column row)
    (fun r => r.map (fun x => x.column))
    (fun row => map_column_listUpd
      (fun cell => ⟨cell.column, cell.value + e.value⟩) (fun _ => rfl) e.column row)
    k acc.1

theorem accum_entries_shape (colc k : ℕ) (es : List Entry) :
    ∀ acc : List Row × List ℕ,
    ((es.foldl (accum_entry colc k) acc).1).map (fun r => r.map (fun x => x.column)) =
      acc.1.map (fun r => r.map (fun x => x.column)) := by
  induction es with
  | nil => intro acc; rfl
  | cons e t ih =>
    intro acc
    rw [List.foldl_cons, ih]
    exact accum_entry_shape colc k acc e

theorem accum_range_shape (colc : ℕ) (matrix : Csr) (A : List (Option ℕ)) :
    ∀ (n : ℕ) (acc : List Row × List ℕ),
    (((List.range n).foldl (accum_row colc matrix A) acc).1).map
        (fun r => r.map (fun x => x.column)) =
      acc.1.map (fun r => r.map (fun x => x.column)) := by
  intro n
  induction n with
  | zero => intro acc; rfl
  | succ n ih =>
    intro acc
    rw [foldl_range_succ]
    rcases hA : A.getD n none with _ | k
    · have hstep : accum_row colc matrix A
          ((List.range n).foldl (accum_row colc matrix A) acc) n =
          (List.range n).foldl (accum_row colc matrix A) acc := by
        simp only [accum_row]
        rw [hA]
      rw [hstep, ih]
    · have hstep : accum_row colc matrix A
          ((List.range n).foldl (accum_row colc matrix A) acc) n =
          (matrix.get_row n).foldl (accum_entry colc k)
            ((List.range n).foldl (accum_row colc matrix A) acc) := by
        simp only [accum_row]
        rw [hA]
      rw [hstep, accum_entries_shape, ih]

theorem recompute_shape (rc colc cc : ℕ) (matrix : Csr) (A : List (Option ℕ)) (C : Csr) :
    colShape (recompute rc colc cc matrix A C) = colShape C := by
  simp only [recompute, colShape, normalize_phase, accumulate_phase, reset_phase]
  rw [shape_foldl_upd (fun c => normRow colc
      ((List.range rc).foldl (accum_row colc matrix A)
        ((⟨(List.range cc).foldl (fun rows c => listUpd zeroRow c rows) C.rows⟩ : Csr).rows,
          List.replicate (cc * colc) 0)).2 c)
    (fun k r => normRow_columns colc _ k r)]
  rw [accum_range_shape colc matrix A rc]
  exact shape_foldl_upd (fun _ => zeroRow) (fun _ r => zeroRow_columns r) cc C.rows

theorem recompute_rows_length (rc colc cc : ℕ) (matrix : Csr) (A : List (Option ℕ))
    (C : Csr) : (recompute rc colc cc matrix A C).rows.length = C.rows.length := by
  simp only [recompute, normalize_phase, accumulate_phase, reset_phase]
  rw [length_foldl_upd (fun c => normRow colc
      ((List.range rc).foldl (accum_row colc matrix A)
        ((⟨(List.range cc).foldl (fun rows c => listUpd zeroRow c rows) C.rows⟩ : Csr).rows,
          List.replicate (cc * colc) 0)).2 c) cc]
  rw [accum_range_rows_length]
  exact length_foldl_upd (fun _ => zeroRow) cc C.rows

theorem zeroRow_congr (r s : Row)
    (h : r.map (fun e => e.column) = s.map (fun e => e.column)) :
    zeroRow r = zeroRow s := by
  have h1 : zeroRow r = (r.map (fun e => e.column)).map (fun c => ⟨c, Fq.val 0⟩) := by
    rw [List.map_map]
    rfl
  have h2 : zeroRow s = (s.map (fun e => e.column)).map (fun c => ⟨c, Fq.val 0⟩) := by
    rw [List.map_map]
    rfl
  rw [h1, h2, h]

theorem reset_congr (cc : ℕ) (C D : Csr) (hC : C.rows.length = cc)
    (hD : D.rows.length = cc) (hsh : colShape C = colShape D) :
    reset_phase cc C = reset_phase cc D := by
  show (⟨(List.range cc).foldl (fun rows c => listUpd zeroRow c rows) C.rows⟩ : Csr) =
    ⟨(List.range cc).foldl (fun rows c => listUpd zeroRow c rows) D.rows⟩
  have hrows : (List.range cc).foldl (fun rows c => listUpd zeroRow c rows) C.rows =
      (List.range cc).foldl (fun rows c => listUpd zeroRow c rows) D.rows := by
    apply List.ext_getElem?
    intro j
    rw [foldl_upd_range (fun _ => zeroRow) cc C.rows j,
      foldl_upd_range (fun _ => zeroRow) cc D.rows j]
    by_cases hj : j < cc
    · rw [if_pos hj, if_pos hj]
      have hjC : j < C.rows.length := by omega
      have hjD : j < D.rows.length := by omega
      rcases hC1 : C.rows[j]? with _ | r
      · rw [List.getElem?_eq_none_iff] at hC1
        omega
      rcases hD1 : D.rows[j]? with _ | t
      · rw [List.getElem?_eq_none_iff] at hD1
        omega
      have hcol : r.map (fun e => e.column) = t.map (fun e => e.column) := by
        have h1 := congrArg (fun l => l[j]?) hsh
        simp only [colShape, List.getElem?_map] at h1
        rw [hC1, hD1] at h1
        simpa using h1
      show some (zeroRow r) = some (zeroRow t)
      rw [zeroRow_congr r t hcol]
    · rw [if_neg hj, if_neg hj]
      have hjC : C.rows[j]? = none := by
        rw [List.getElem?_eq_none_iff]
        omega
      have hjD : D.rows[j]? = none := by
        rw [List.getElem?_eq_none_iff]
        omega
      rw [hjC, hjD]
  rw [hrows]

theorem recompute_congr (rc colc cc : ℕ) (matrix : Csr) (A : List (Option ℕ))
    (C D : Csr) (hC : C.rows.length = cc) (hD : D.rows.length = cc)
    (hsh : colShape C = colShape D) :
    recompute rc colc cc matrix A C = recompute rc colc cc matrix A D := by
  simp only [recompute]
  rw [reset_congr cc C D hC hD hsh]

theorem recompute_idem (rc colc cc : ℕ) (matrix : Csr) (A : List (Option ℕ))
    (C : Csr) (hC : C.rows.length = cc) :
    recompute rc colc cc matrix A (recompute rc colc cc matrix A C) =
      recompute rc colc cc matrix A C :=
  recompute_congr rc colc cc matrix A _ C
    (by rw [recompute_rows_length, hC]) hC (recompute_shape rc colc cc matrix A C)

/-! The return value of the refinement step, and the fixed point that a
zero return signals. -/

theorem make_step_fields (m : Model) (matrix : Csr) :
    (m.make_step matrix).1.row_count = m.row_count ∧
    (m.make_step matrix).1.column_count = m.column_count ∧
    (m.make_step matrix).1.cluster_count = m.cluster_count ∧
    (m.make_step matrix).1.centroids =
      recompute m.row_count m.column_count m.cluster_count matrix
        (m.make_step matrix).1.row_clusters m.centroids ∧
    (m.make_step matrix).1.row_clusters.length = m.row_clusters.length := by
  have hconst := assign_range_const matrix (m, 0) m.row_count
  refine ⟨hconst.1, hconst.2.1, hconst.2.2.1, ?_, hconst.2.2.2.2⟩
  show recompute ((List.range m.row_count).foldl (assign_step matrix) (m, 0)).1.row_count
      ((List.range m.row_count).foldl (assign_step matrix) (m, 0)).1.column_count
      ((List.range m.row_count).foldl (assign_step matrix) (m, 0)).1.cluster_count matrix
      ((List.range m.row_count).foldl (assign_step matrix) (m, 0)).1.row_clusters
      ((List.range m.row_count).foldl (assign_step matrix) (m, 0)).1.centroids =
    recompute m.row_count m.column_count m.cluster_count matrix
      ((List.range m.row_count).foldl (assign_step matrix) (m, 0)).1.row_clusters m.centroids
  rw [hconst.1, hconst.2.1, hconst.2.2.1, hconst.2.2.2.1]

theorem reach_lengths (matrix : Csr) (m : Model) (h : Reach matrix m) :
    m.row_clusters.length = m.row_count ∧
    m.centroids.rows.length = m.cluster_count := by
  induction h with
  | init rc colc cc rand =>
    constructor
    · simp [Model.mk_new]
    · simp [Model.mk_new]
  | step hm ih =>
    rcases make_step_fields _ matrix with ⟨h1, h2, h3, h4, h5⟩
    constructor
    · rw [h1, h5]
      exact ih.1
    · rw [h3, h4, recompute_rows_length]
      exact ih.2

theorem assign_ret_eq (m : Model) (matrix : Csr) :
    (m.make_step matrix).2 =
      ((List.range m.row_count).filter (fun j =>
        decide (3 ≤ (matrix.get_row j).length) &&
        decide (some (m.get_nearest_centroid (matrix.get_row j)) ≠
          m.row_clusters.getD j none))).length := by
  show ((List.range m.row_count).foldl (assign_step matrix) (m, 0)).2 = _
  rw [assign_range_count]
  simp

theorem assign_apply_ret0 (m : Model) (matrix : Csr)
    (hlen : m.row_clusters.length = m.row_count)
    (hret : (m.make_step matrix).2 = 0) :
    (m.make_step matrix).1.row_clusters = m.row_clusters := by
  have h1 : ((List.range m.row_count).filter (fun j =>
      decide (3 ≤ (matrix.get_row j).length) &&
      decide (some (m.get_nearest_centroid (matrix.get_row j)) ≠
        m.row_clusters.getD j none))).length = 0 := by
    rw [← assign_ret_eq]
    exact hret
  rw [List.length_eq_zero] at h1
  have h2 : ∀ j, j < m.row_count → 3 ≤ (matrix.get_row j).length →
      some (m.get_nearest_centroid (matrix.get_row j)) =
        m.row_clusters.getD j none := by
    intro j hj hlong
    by_contra hne
    have hmem : j ∈ (List.range m.row_count).filter (fun j =>
        decide (3 ≤ (matrix.get_row j).length) &&
        decide (some (m.get_nearest_centroid (matrix.get_row j)) ≠
          m.row_clusters.getD j none)) := by
      refine List.mem_filter.mpr ⟨List.mem_range.mpr hj, ?_⟩
      rw [Bool.and_eq_true, decide_eq_true_eq, decide_eq_true_eq]
      exact ⟨hlong, hne⟩
    rw [h1] at hmem
    exact absurd hmem (List.not_mem_nil j)
  apply List.ext_getElem?
  intro j
  show ((List.range m.row_count).foldl (assign_step matrix) (m, 0)).1.row_clusters[j]? = _
  rw [assign_range_getElem?]
  by_cases hc : j < m.row_count ∧ 3 ≤ (matrix.get_row j).length
  · rw [if_pos hc]
    have hjl : j < m.row_clusters.length := by omega
    have heq := h2 j hc.1 hc.2
    rw [List.getElem?_eq_getElem hjl]
    have hgd : m.row_clusters.getD j none = m.row_clusters.get ⟨j, hjl⟩ := by
      rw [List.getD_eq_getElem?_getD, List.getElem?_eq_getElem hjl]
      rfl
    rw [hgd] at heq
    simp only [Option.map_some]
    rw [heq]
    rfl
  · rw [if_neg hc]

theorem assign_model_ret0 (m : Model) (matrix : Csr)
    (hlen : m.row_clusters.length = m.row_count)
    (hret : (m.make_step matrix).2 = 0) :
    (m.assign_phase matrix).1 = m := by
  have hA : (m.assign_phase matrix).1.row_clusters = m.row_clusters :=
    assign_apply_ret0 m matrix hlen hret
  have hconst := assign_range_const matrix (m, 0) m.row_count
  have h1 : (m.assign_phase matrix).1.row_count = m.row_count := hconst.1
  have h2 : (m.assign_phase matrix).1.column_count = m.column_count := hconst.2.1
  have h3 : (m.assign_phase matrix).1.cluster_count = m.cluster_count := hconst.2.2.1
  have h4 : (m.assign_phase matrix).1.centroids = m.centroids := hconst.2.2.2.1
  calc (m.assign_phase matrix).1
      = ⟨(m.assign_phase matrix).1.row_count, (m.assign_phase matrix).1.column_count,
         (m.assign_phase matrix).1.cluster_count, (m.assign_phase matrix).1.centroids,
         (m.assign_phase matrix).1.row_clusters⟩ := rfl
    _ = ⟨m.row_count, m.column_count, m.cluster_count, m.centroids, m.row_clusters⟩ := by
        rw [h1, h2, h3, h4, hA]
    _ = m := rfl

theorem make_step_ret0_fix (m : Model) (matrix : Csr)
    (hlen : m.row_clusters.length = m.row_count)
    (hstab : recompute m.row_count m.column_count m.cluster_count matrix
      m.row_clusters m.centroids = m.centroids)
    (hret : (m.make_step matrix).2 = 0) :
    (m.make_step matrix).1 = m := by
  have hm := assign_model_ret0 m matrix hlen hret
  show (⟨(m.assign_phase matrix).1.row_count, (m.assign_phase matrix).1.column_count,
    (m.assign_phase matrix).1.cluster_count,
    recompute (m.assign_phase matrix).1.row_count (m.assign_phase matrix).1.column_count
      (m.assign_phase matrix).1.cluster_count matrix
      (m.assign_phase matrix).1.row_clusters (m.assign_phase matrix).1.centroids,
    (m.assign_phase matrix).1.row_clusters⟩ : Model) = m
  rw [hm, hstab]

theorem make_step_stable (m : Model) (matrix : Csr)
    (hcc : m.centroids.rows.length = m.cluster_count) :
    recompute (m.make_step matrix).1.row_count (m.make_step matrix).1.column_count
      (m.make_step matrix).1.cluster_count matrix (m.make_step matrix).1.row_clusters
      (m.make_step matrix).1.centroids = (m.make_step matrix).1.centroids := by
  have hf := make_step_fields m matrix
  rw [hf.1, hf.2.1, hf.2.2.1, hf.2.2.2.1]
  exact recompute_idem m.row_count m.column_count m.cluster_count matrix
    (m.make_step matrix).1.row_clusters m.centroids hcc

theorem assign_all_short (matrix : Csr) (acc : Model × ℕ) : ∀ (n : ℕ),
    (∀ j, j < n → (matrix.get_row j).length < 3) →
    (List.range n).foldl (assign_step matrix) acc = acc := by
  intro n
  induction n with
  | zero => intro h2; rfl
  | succ n ih =>
    intro h2
    rw [foldl_range_succ, ih (fun j hj => h2 j (by omega))]
    simp [assign_step, h2 n (by omega)]

theorem fresh_ret0_short (rc colc cc : ℕ) (rand : ℕ → ℕ → ℚ) (matrix : Csr)
    (hret : ((Model.mk_new rc colc cc rand).make_step matrix).2 = 0) :
    ∀ j, j < rc → (matrix.get_row j).length < 3 := by
  intro j hj
  by_contra hlong
  push_neg at hlong
  have h1 := assign_ret_eq (Model.mk_new rc colc cc rand) matrix
  rw [hret] at h1
  have hgd : (Model.mk_new rc colc cc rand).row_clusters.getD j none = none := by
    show (List.replicate rc (none : Option ℕ)).getD j none = none
    rw [List.getD_eq_getElem?_getD, List.getElem?_replicate]
    by_cases h : j < rc <;> simp [h]
  have hmem : j ∈ (List.range (Model.mk_new rc colc cc rand).row_count).filter (fun j =>
      decide (3 ≤ (matrix.get_row j).length) &&
      decide (some ((Model.mk_new rc colc cc rand).get_nearest_centroid
        (matrix.get_row j)) ≠
        (Model.mk_new rc colc cc rand).row_clusters.getD j none)) := by
    refine List.mem_filter.mpr ⟨List.mem_range.mpr hj, ?_⟩
    rw [Bool.and_eq_true, decide_eq_true_eq, decide_eq_true_eq]
    refine ⟨hlong, ?_⟩
    rw [hgd]
    simp
  have h2 : ((List.range (Model.mk_new rc colc cc rand).row_count).filter (fun j =>
      decide (3 ≤ (matrix.get_row j).length) &&
      decide (some ((Model.mk_new rc colc cc rand).get_nearest_centroid
        (matrix.get_row j)) ≠
        (Model.mk_new rc colc cc rand).row_clusters.getD j none))) = [] :=
    List.length_eq_zero.mp h1.symm
  rw [h2] at hmem
  exact absurd hmem (List.not_mem_nil j)

theorem ret_counts (m : Model) (matrix : Csr)
    (hlen : m.row_clusters.length = m.row_count) :
    (m.make_step matrix).2 =
      ((List.range m.row_count).filter (fun i =>
        decide ((m.make_step matrix).1.row_clusters.getD i none ≠
          m.row_clusters.getD i none))).length := by
  rw [assign_ret_eq]
  congr 1
  apply List.filter_congr
  intro j hj
  have hjrc := List.mem_range.mp hj
  have hnew : (m.make_step matrix).1.row_clusters.getD j none =
      (if 3 ≤ (matrix.get_row j).length
       then some (m.get_nearest_centroid (matrix.get_row j))
       else m.row_clusters.getD j none) := by
    rw [List.getD_eq_getElem?_getD]
    show ((((List.range m.row_count).foldl (assign_step matrix)
      (m, 0)).1.row_clusters[j]?).getD none) = _
    rw [assign_range_getElem?]
    by_cases h3 : 3 ≤ (matrix.get_row j).length
    · rw [if_pos ⟨hjrc, h3⟩, if_pos h3]
      have hjl : j < m.row_clusters.length := by omega
      rw [List.getElem?_eq_getElem hjl]
      simp
    · rw [if_neg (fun hcon => h3 hcon.2), if_neg h3, List.getD_eq_getElem?_getD]
  rw [hnew]
  by_cases h3 : 3 ≤ (matrix.get_row j).length
  · rw [if_pos h3]
    have hd : decide (3 ≤ (matrix.get_row j).length) = true := decide_eq_true h3
    rw [hd, Bool.true_and]
  · rw [if_neg h3]
    have hd : decide (3 ≤ (matrix.get_row j).length) = false := by
      rw [decide_eq_false_iff_not]
      exact h3
    rw [hd, Bool.false_and]
    symm
    rw [decide_eq_false_iff_not]
    exact fun hcon => hcon rfl

/-- C1: for every reachable model state, `make_step` returns the number of
data rows whose assignment-table entry changed during the call; and a zero
return signals a fixed point: the next `make_step` on the same data matrix
leaves the assignment table and the centroid store unchanged and returns 0
again. -/
theorem make_step_count_and_fixed_point (matrix : Csr) (m : Model)
    (hreach : Reach matrix m) :
    (m.make_step matrix).2 =
      ((List.range m.row_count).filter (fun i =>
        decide ((m.make_step matrix).1.row_clusters.getD i none ≠
          m.row_clusters.getD i none))).length ∧
    ((m.make_step matrix).2 = 0 →
      ((m.make_step matrix).1.make_step matrix).1.row_clusters =
        (m.make_step matrix).1.row_clusters ∧
      ((m.make_step matrix).1.make_step matrix).1.centroids =
        (m.make_step matrix).1.centroids ∧
      ((m.make_step matrix).1.make_step matrix).2 = 0) := by
  have hg := reach_lengths matrix m hreach
  refine ⟨ret_counts m matrix hg.1, fun hret => ?_⟩
  have hg1 := reach_lengths matrix _ (Reach.step hreach)
  have hstab1 := make_step_stable m matrix hg.2
  have hret1 : ((m.make_step matrix).1.make_step matrix).2 = 0 := by
    cases hreach with
    | init rc colc cc rand =>
      have hshort := fresh_ret0_short rc colc cc rand matrix hret
      show ((List.range
          ((Model.mk_new rc colc cc rand).make_step matrix).1.row_count).foldl
        (assign_step matrix)
        (((Model.mk_new rc colc cc rand).make_step matrix).1, 0)).2 = 0
      have hrc : ((Model.mk_new rc colc cc rand).make_step matrix).1.row_count = rc :=
        (make_step_fields (Model.mk_new rc colc cc rand) matrix).1
      rw [hrc, assign_all_short matrix _ rc hshort]
    | @step T hT =>
      have hgT := reach_lengths matrix T hT
      have hstabm := make_step_stable T matrix hgT.2
      have hfix := make_step_ret0_fix ((T.make_step matrix).1) matrix
        (reach_lengths matrix _ (Reach.step hT)).1 hstabm hret
      rw [hfix]
      exact hret
  have hfix1 := make_step_ret0_fix ((m.make_step matrix).1) matrix hg1.1 hstab1 hret1
  exact ⟨congrArg Model.row_clusters hfix1, congrArg Model.centroids hfix1, hret1⟩

/-- Witness: make_step_count_and_fixed_point on a freshly constructed
1-row model and a data matrix whose single row has one entry: every row is
skipped, the first step returns 0, and so does the step after it. -/
theorem make_step_count_and_fixed_point_witness :
    Reach ⟨[[⟨0, Fq.val 1⟩]]⟩ (Model.mk_new 1 1 1 (fun _ _ => 0)) ∧
    (((Model.mk_new 1 1 1 (fun _ _ => 0)).make_step ⟨[[⟨0, Fq.val 1⟩]]⟩).1.make_step
      ⟨[[⟨0, Fq.val 1⟩]]⟩).2 = 0 := by
  have hret : ((Model.mk_new 1 1 1 (fun _ _ => 0)).make_step ⟨[[⟨0, Fq.val 1⟩]]⟩).2 = 0 := by
    show ((List.range 1).foldl (assign_step ⟨[[⟨0, Fq.val 1⟩]]⟩)
      (Model.mk_new 1 1 1 (fun _ _ => 0), 0)).2 = 0
    norm_num [assign_step, Csr.get_row, List.range_succ]
  exact ⟨Reach.init 1 1 1 (fun _ _ => 0),
    ((make_step_count_and_fixed_point ⟨[[⟨0, Fq.val 1⟩]]⟩ (Model.mk_new 1 1 1 (fun _ _ => 0))
      (Reach.init 1 1 1 (fun _ _ => 0))).2 hret).2.2⟩

end RustyTank
